import Mathlib

/-!
Verification of the ultra-shuffle experiment-orchestration harness
(`ablation-study/run.py` and `ablation-study/tools/parse_eventlog.py`)
against its natural-language specification.

The Python code is shallowly embedded: JSON-ish Python values become the
inductive type `PyVal`, fallible Python operations (attribute errors on
non-dict `.get`, `int()` on non-finite floats) become `Except Unit`,
and the streaming event-log fold becomes an explicit accumulator fold.
-/

/-- A Python/JSON value as it can occur in a decoded event-log line.
`float` carries either a finite value (every finite IEEE double is a
rational) or one of the non-finite specials, on which Python's `int()`
raises. `dict` is an insertion-ordered association list; dictionaries
produced by `json.loads` have pairwise-distinct keys. -/
inductive PyFloat where
  | finite (q : ℚ)
  | nan
  | inf
  | ninf
deriving DecidableEq, Repr

inductive PyVal where
  | none
  | bool (b : Bool)
  | int (n : Int)
  | float (f : PyFloat)
  | str (s : String)
  | list (elems : List PyVal)
  | dict (entries : List (String × PyVal))
deriving Repr

/-- Python truthiness of a value (`bool(v)`). NaN and infinities are truthy. -/
def pyTruthy : PyVal → Bool
  | .none => false
  | .bool b => b
  | .int n => n != 0
  | .float (.finite q) => q != 0
  | .float _ => true
  | .str s => s != ""
  | .list l => !l.isEmpty
  | .dict d => !d.isEmpty

/-- Python `a or b`: `a` when truthy, else `b`. -/
def pyOr (a b : PyVal) : PyVal := if pyTruthy a then a else b

/-- Python `v == s` for a string literal `s`: only a `str` can compare equal. -/
def pyEqStr (v : PyVal) (s : String) : Bool :=
  match v with
  | .str t => t = s
  | _ => false

def PyVal.isNone : PyVal → Bool
  | .none => true
  | _ => false

/-- `dct.get(k)` on a Python dict: the bound value, or `None` when absent.
Calling `.get` on a non-dict raises `AttributeError` (modelled as `.error`). -/
def pyGet (v : PyVal) (k : String) : Except Unit PyVal :=
  match v with
  | .dict entries => .ok ((entries.lookup k).getD .none)
  | _ => .error ()

/-- `int()` applied to a finite float truncates toward zero. -/
def pyTrunc (q : ℚ) : Int := if 0 ≤ q then q.floor else q.ceil

/-- The six ASCII whitespace characters. Python's `str` whitespace and
its str-mode regex class backslash-s additionally match Unicode
whitespace (U+00A0, U+1C-U+1F, U+85, ...), so this models the program's
whitespace notion exactly only on text over the `tameChar` alphabet
below, where those extra characters cannot occur; the config-transformer
theorems that depend on whitespace classification assume that alphabet. -/
def pySpace (c : Char) : Bool :=
  c = ' ' || c = '\t' || c = '\n' || c = '\r' || c = '\x0b' || c = '\x0c'

/-- Characters on which the newline-only, ASCII embedding of the config
transformer coincides with Python: ASCII excluding the non-newline
line-break characters of `str.splitlines` (`\x0b`, `\x0c`, `\r`,
`\x1c`-`\x1e`) and `\x1f` (whitespace for Python's `str` but not for
this model). On such text `splitlines(keepends=True)` splits exactly at
newlines and Python's whitespace classes reduce to space, tab and
newline. -/
def tameChar (c : Char) : Bool :=
  c.toNat < 128 && !(c = '\x0b' || c = '\x0c' || c = '\r'
    || c = '\x1c' || c = '\x1d' || c = '\x1e' || c = '\x1f')

/-- Digit run of Python's `int(str)` grammar after the first digit:
single underscores are allowed only between digits. -/
def pyDigitsAux : Nat → List Char → Option Nat
  | acc, [] => some acc
  | acc, '_' :: c :: cs =>
      if c.isDigit then pyDigitsAux (acc * 10 + (c.toNat - '0'.toNat)) cs else Option.none
  | _, ['_'] => Option.none
  | acc, c :: cs =>
      if c.isDigit then pyDigitsAux (acc * 10 + (c.toNat - '0'.toNat)) cs else Option.none

def pyParseNat : List Char → Option Nat
  | [] => Option.none
  | c :: cs => if c.isDigit then pyDigitsAux (c.toNat - '0'.toNat) cs else Option.none

/-- Python `int(s)` for a string: strip surrounding whitespace, optional
single sign, then an ASCII digit run with optional single separating
underscores; anything else fails (`ValueError`, caught by `_to_int`). -/
def pyIntOfString (s : String) : Option Int :=
  let t := ((s.data.dropWhile pySpace).reverse.dropWhile pySpace).reverse
  match t with
  | '+' :: r => (pyParseNat r).map Int.ofNat
  | '-' :: r => (pyParseNat r).map (fun n => -(Int.ofNat n))
  | r => (pyParseNat r).map Int.ofNat

/-- `_to_int(value, default)` from `tools/parse_eventlog.py`.

The default is an `Option Int` because call sites pass either an integer,
`None`, or the current (possibly-`None`) accumulator field. `None`, a
non-integer string, and values on which `int()` raises `TypeError`
(lists, dicts) yield the default; `bool`/`int`/finite `float` coerce;
`int()` on a non-finite float raises out of the function (the bare
`int(value)` call for floats sits outside the `try` block). -/
def _to_int (v : PyVal) (d : Option Int) : Except Unit (Option Int) :=
  match v with
  | .none => .ok d
  | .bool b => .ok (some (if b then 1 else 0))
  | .int n => .ok (some n)
  | .float (.finite q) => .ok (some (pyTrunc q))
  | .float _ => .error ()
  | .str s =>
      match pyIntOfString s with
      | some n => .ok (some n)
      | Option.none => .ok d
  | .list _ => .ok d
  | .dict _ => .ok d

/-- `_to_int(value, 0)` specialised to the integer default used by the
task-metric accumulation sites; the result is always an integer. -/
def toIntZ (v : PyVal) : Except Unit Int := do
  let r ← _to_int v (some 0)
  pure (r.getD 0)

/-- One stage's accumulated record (`stages[sid]`), a dict whose absent
keys read back as `None` via `.get`. -/
structure StageAcc where
  name : PyVal := .none
  submission_time_ms : Option Int := Option.none
  completion_time_ms : Option Int := Option.none
  num_tasks : Option Int := Option.none
deriving Repr

def StageAcc.empty : StageAcc := {}

/-- The mutable locals of `parse_eventlog`, threaded through the fold over
event lines. `stages` is the insertion-ordered `stages` dict keyed by
stage id. -/
structure ParseAcc where
  app_start_ts : Option Int := Option.none
  app_end_ts : Option Int := Option.none
  app_id : PyVal := .none
  app_name : PyVal := .none
  task_count : Nat := 0
  task_failed : Nat := 0
  exec_run_time_ms : Int := 0
  jvm_gc_time_ms : Int := 0
  shuffle_write_bytes : Int := 0
  shuffle_write_records : Int := 0
  shuffle_write_time_ns : Int := 0
  shuffle_read_remote_bytes : Int := 0
  shuffle_read_local_bytes : Int := 0
  shuffle_read_records : Int := 0
  shuffle_read_fetch_wait_ms : Int := 0
  stages : List (Int × StageAcc) := []
deriving Repr

def ParseAcc.empty : ParseAcc := {}

/-- `stages.setdefault(sid, {})` followed by in-place mutation: replace the
entry when the key is present, else append a fresh one at the end. -/
def upsertStage (l : List (Int × StageAcc)) (k : Int) (v : StageAcc) :
    List (Int × StageAcc) :=
  if l.any (fun p => p.1 == k) then
    l.map (fun p => if p.1 == k then (k, v) else p)
  else l ++ [(k, v)]

/-- Processing of one decoded event line of `parse_eventlog` (the body of
the `for line in f` loop after `json.loads`). A non-dict event raises at
`evt.get("Event")`; `evt.get(k)` is inlined as assoc-list lookup with
`None` default. -/
def step (acc : ParseAcc) (evt : PyVal) : Except Unit ParseAcc :=
  match evt with
  | .dict entries =>
    let etype := (entries.lookup "Event").getD .none
    if pyEqStr etype "SparkListenerApplicationStart" then
      match _to_int ((entries.lookup "Timestamp").getD .none) acc.app_start_ts with
      | .error e => .error e
      | .ok st =>
          .ok { acc with
            app_start_ts := st
            app_id := pyOr ((entries.lookup "App ID").getD .none) acc.app_id
            app_name := pyOr ((entries.lookup "App Name").getD .none) acc.app_name }
    else if pyEqStr etype "SparkListenerApplicationEnd" then
      match _to_int ((entries.lookup "Timestamp").getD .none) acc.app_end_ts with
      | .error e => .error e
      | .ok en => .ok { acc with app_end_ts := en }
    else if pyEqStr etype "SparkListenerStageSubmitted" then
      let info := pyOr ((entries.lookup "Stage Info").getD .none) (.dict [])
      match info with
      | .dict ientries =>
        match _to_int ((ientries.lookup "Stage ID").getD .none) Option.none with
        | .error e => .error e
        | .ok Option.none => .ok acc
        | .ok (some sid) =>
          let cur := (acc.stages.lookup sid).getD StageAcc.empty
          match _to_int ((ientries.lookup "Submission Time").getD .none)
              cur.submission_time_ms with
          | .error e => .error e
          | .ok sub =>
              .ok { acc with stages := (upsertStage acc.stages sid
                { cur with
                  name := pyOr ((ientries.lookup "Stage Name").getD .none) cur.name
                  submission_time_ms := sub }) }
      | _ => .error ()
    else if pyEqStr etype "SparkListenerStageCompleted" then
      let info := pyOr ((entries.lookup "Stage Info").getD .none) (.dict [])
      match info with
      | .dict ientries =>
        match _to_int ((ientries.lookup "Stage ID").getD .none) Option.none with
        | .error e => .error e
        | .ok Option.none => .ok acc
        | .ok (some sid) =>
          let cur := (acc.stages.lookup sid).getD StageAcc.empty
          match _to_int ((ientries.lookup "Completion Time").getD .none)
              cur.completion_time_ms with
          | .error e => .error e
          | .ok comp =>
            match _to_int ((ientries.lookup "Number of Tasks").getD .none)
                cur.num_tasks with
            | .error e => .error e
            | .ok nt =>
                .ok { acc with stages := (upsertStage acc.stages sid
                  { cur with
                    name := pyOr ((ientries.lookup "Stage Name").getD .none) cur.name
                    completion_time_ms := comp
                    num_tasks := nt }) }
      | _ => .error ()
    else if pyEqStr etype "SparkListenerTaskEnd" then
      let reason := pyOr ((entries.lookup "Task End Reason").getD .none) (.dict [])
      let failInc : Nat :=
        match reason with
        | .dict rentries =>
            let r := (rentries.lookup "Reason").getD .none
            if r.isNone || pyEqStr r "Success" then 0 else 1
        | _ => 0
      let metrics := pyOr ((entries.lookup "Task Metrics").getD .none) (.dict [])
      match metrics with
      | .dict ms => do
        let ert ← toIntZ ((ms.lookup "Executor Run Time").getD .none)
        let gc ← toIntZ ((ms.lookup "JVM GC Time").getD .none)
        let sw := pyOr ((ms.lookup "Shuffle Write Metrics").getD .none) (.dict [])
        match sw with
        | .dict sws => do
          let swb ← toIntZ ((sws.lookup "Shuffle Bytes Written").getD .none)
          let swr ← toIntZ ((sws.lookup "Shuffle Records Written").getD .none)
          let swt ← toIntZ ((sws.lookup "Shuffle Write Time").getD .none)
          let sr := pyOr ((ms.lookup "Shuffle Read Metrics").getD .none) (.dict [])
          match sr with
          | .dict srs => do
            let srrem ← toIntZ ((srs.lookup "Remote Bytes Read").getD .none)
            let srloc ← toIntZ ((srs.lookup "Local Bytes Read").getD .none)
            let srrec ← toIntZ ((srs.lookup "Records Read").getD .none)
            let srw ← toIntZ ((srs.lookup "Fetch Wait Time").getD .none)
            pure { acc with
              task_count := acc.task_count + 1
              task_failed := acc.task_failed + failInc
              exec_run_time_ms := acc.exec_run_time_ms + ert
              jvm_gc_time_ms := acc.jvm_gc_time_ms + gc
              shuffle_write_bytes := acc.shuffle_write_bytes + swb
              shuffle_write_records := acc.shuffle_write_records + swr
              shuffle_write_time_ns := acc.shuffle_write_time_ns + swt
              shuffle_read_remote_bytes := acc.shuffle_read_remote_bytes + srrem
              shuffle_read_local_bytes := acc.shuffle_read_local_bytes + srloc
              shuffle_read_records := acc.shuffle_read_records + srrec
              shuffle_read_fetch_wait_ms := acc.shuffle_read_fetch_wait_ms + srw }
          | _ => .error ()
        | _ => .error ()
      | _ => .error ()
    else
      .ok acc
  | _ => .error ()

/-- One row of the output `stages` list of the summary. -/
structure StageRow where
  stage_id : Int
  name : PyVal
  submission_time_ms : Option Int
  completion_time_ms : Option Int
  duration_ms : Option Int
  num_tasks : Option Int
deriving Repr

/-- The summary dict returned by `parse_eventlog`. -/
structure TelemetrySummary where
  app_id : PyVal
  app_name : PyVal
  app_start_ts_ms : Option Int
  app_end_ts_ms : Option Int
  app_duration_ms : Option Int
  tasks_total : Nat
  tasks_failed : Nat
  executor_run_time_ms_sum : Int
  jvm_gc_time_ms_sum : Int
  shuffle_write_bytes_sum : Int
  shuffle_write_records_sum : Int
  shuffle_write_time_ns_sum : Int
  shuffle_read_remote_bytes_sum : Int
  shuffle_read_local_bytes_sum : Int
  shuffle_read_bytes_sum : Int
  shuffle_read_records_sum : Int
  shuffle_read_fetch_wait_ms_sum : Int
  stages : List StageRow
deriving Repr

/-- The comparison `key=lambda x: x[0]` used to sort the stages dict. -/
def stageLE (a b : Int × StageAcc) : Prop := a.1 ≤ b.1

instance : DecidableRel stageLE :=
  fun a b => inferInstanceAs (Decidable (a.1 ≤ b.1))

instance : IsTotal (Int × StageAcc) stageLE := ⟨fun a b => le_total a.1 b.1⟩

instance : IsTrans (Int × StageAcc) stageLE :=
  ⟨fun _ _ _ hab hbc => le_trans hab hbc⟩

/-- One entry of the `stage_rows` construction loop: the duration is
defined only when both timestamps are ints and completion ≥ submission. -/
def mkStageRow (p : Int × StageAcc) : StageRow :=
  let dur : Option Int :=
    match p.2.submission_time_ms, p.2.completion_time_ms with
    | some sub, some comp => if sub ≤ comp then some (comp - sub) else Option.none
    | _, _ => Option.none
  { stage_id := p.1
    name := p.2.name
    submission_time_ms := p.2.submission_time_ms
    completion_time_ms := p.2.completion_time_ms
    duration_ms := dur
    num_tasks := p.2.num_tasks }

/-- The tail of `parse_eventlog`: sort the stages dict by stage id
ascending, derive stage rows and the application duration, and build the
returned summary dict (`shuffle_read_bytes_sum` is the remote + local sum). -/
def mkSummary (acc : ParseAcc) : TelemetrySummary :=
  let sortedStages := List.insertionSort stageLE acc.stages
  let appDur : Option Int :=
    match acc.app_start_ts, acc.app_end_ts with
    | some st, some en => if st ≤ en then some (en - st) else Option.none
    | _, _ => Option.none
  { app_id := acc.app_id
    app_name := acc.app_name
    app_start_ts_ms := acc.app_start_ts
    app_end_ts_ms := acc.app_end_ts
    app_duration_ms := appDur
    tasks_total := acc.task_count
    tasks_failed := acc.task_failed
    executor_run_time_ms_sum := acc.exec_run_time_ms
    jvm_gc_time_ms_sum := acc.jvm_gc_time_ms
    shuffle_write_bytes_sum := acc.shuffle_write_bytes
    shuffle_write_records_sum := acc.shuffle_write_records
    shuffle_write_time_ns_sum := acc.shuffle_write_time_ns
    shuffle_read_remote_bytes_sum := acc.shuffle_read_remote_bytes
    shuffle_read_local_bytes_sum := acc.shuffle_read_local_bytes
    shuffle_read_bytes_sum := acc.shuffle_read_remote_bytes + acc.shuffle_read_local_bytes
    shuffle_read_records_sum := acc.shuffle_read_records
    shuffle_read_fetch_wait_ms_sum := acc.shuffle_read_fetch_wait_ms
    stages := sortedStages.map mkStageRow }

/-- `parse_eventlog` over the decoded JSON values of the log's parseable
lines (blank lines and lines failing `json.loads` are skipped by the
source before reaching the per-event dispatch, so they do not appear in
the input list). -/
def parse_eventlog (events : List PyVal) : Except Unit TelemetrySummary := do
  let acc ← events.foldlM step ParseAcc.empty
  pure (mkSummary acc)

example : _to_int (.str " 45 ") (some 0) = .ok (some 45) := rfl
example : _to_int (.str "4.5") (some 7) = .ok (some 7) := rfl
example : _to_int (.float .nan) (some 0) = .error () := rfl
example : _to_int (.bool true) (some 0) = .ok (some 1) := rfl
example : _to_int (.str "1_2") (some 0) = .ok (some 12) := rfl
example : _to_int (.str "1__2") (some 0) = .ok (some 0) := rfl
example : _to_int (.str "-3") Option.none = .ok (some (-3)) := rfl
example : _to_int (.list []) (some 5) = .ok (some 5) := rfl

example :
    (parse_eventlog
      [.dict [("Event", .str "SparkListenerApplicationStart"), ("Timestamp", .int 1000)],
       .dict [("Event", .str "SparkListenerApplicationEnd"), ("Timestamp", .int 4500)]]).map
      (fun s => s.app_duration_ms) = .ok (some 3500) := rfl

example :
    (parse_eventlog
      [.dict [("Event", .str "SparkListenerApplicationStart"), ("Timestamp", .int 1),
              ("App ID", .str "app-a"), ("App Name", .str "x")],
       .dict [("Event", .str "SparkListenerApplicationStart"), ("Timestamp", .int 2),
              ("App ID", .str "app-b"), ("App Name", .str "y")]]).map
      (fun s => (s.app_id, s.app_start_ts_ms)) = .ok (.str "app-b", some 2) := rfl

example :
    (parse_eventlog
      [.dict [("Event", .str "SparkListenerStageSubmitted"),
              ("Stage Info", .dict [("Stage ID", .int 3), ("Submission Time", .int 10)])],
       .dict [("Event", .str "SparkListenerStageCompleted"),
              ("Stage Info", .dict [("Stage ID", .int 3), ("Completion Time", .int 25),
                                    ("Number of Tasks", .int 8)])],
       .dict [("Event", .str "SparkListenerStageSubmitted"),
              ("Stage Info", .dict [("Stage ID", .int 1), ("Submission Time", .int 2)])]]).map
      (fun s => s.stages.map (fun r => (r.stage_id, r.duration_ms, r.num_tasks)))
      = .ok [(1, Option.none, Option.none), (3, some 15, some 8)] := rfl

example :
    (parse_eventlog
      [.dict [("Event", .str "SparkListenerTaskEnd"),
              ("Task End Reason", .dict [("Reason", .str "Success")]),
              ("Task Metrics", .dict
                [("Executor Run Time", .int 7),
                 ("Shuffle Read Metrics", .dict
                   [("Remote Bytes Read", .int 100), ("Local Bytes Read", .int 23)])])],
       .dict [("Event", .str "SparkListenerTaskEnd"),
              ("Task End Reason", .dict [("Reason", .str "FetchFailed")]),
              ("Task Metrics", .dict
                [("Shuffle Read Metrics", .dict [("Local Bytes Read", .str "5")])])]]).map
      (fun s => (s.tasks_total, s.tasks_failed, s.shuffle_read_bytes_sum,
                 s.shuffle_read_remote_bytes_sum, s.shuffle_read_local_bytes_sum))
      = .ok (2, 1, 128, 100, 28) := rfl

/-- Key characters of the `key_re` regex class (alphanumerics, `_`, `.`, `-`). -/
def keyChar (c : Char) : Bool := c.isAlphanum || c = '_' || c = '.' || c = '-'

/-- `line.rstrip(backslash-n)`: strip all trailing newline characters. -/
def rstripNL (l : List Char) : List Char :=
  (l.reverse.dropWhile (fun c => c = '\n')).reverse

/-- `is_comment`: the line, left-stripped, starts with `#` or `//`. -/
def isComment (l : List Char) : Bool :=
  match l.dropWhile pySpace with
  | '#' :: _ => true
  | '/' :: '/' :: _ => true
  | _ => false

/-- The five capture groups of a `key_re` match. -/
structure KVParts where
  lead : List Char
  key : List Char
  eqws : List Char
  value : List Char
  trail : List Char
deriving Repr

/-- Deterministic reading of the anchored regex
`(ws*)(keychar+)(ws* = ws*)(lazy any*)(ws*)$` applied by `_rewrite_kv_conf`
to a line already stripped of trailing newlines. The greedy/lazy group
structure resolves to: maximal whitespace lead, maximal key run, maximal
whitespace around a mandatory `=`, then the remainder split so that the
trailing group is the maximal whitespace suffix; since `.` cannot match a
newline, a remaining interior newline in the value defeats the match. -/
def matchKV (l : List Char) : Option KVParts :=
  let lead := l.takeWhile pySpace
  let r1 := l.dropWhile pySpace
  let key := r1.takeWhile keyChar
  let r2 := r1.dropWhile keyChar
  if key.isEmpty then Option.none
  else
    let w1 := r2.takeWhile pySpace
    match r2.dropWhile pySpace with
    | [] => Option.none
    | c :: r3 =>
      if c = '=' then
        let w2 := r3.takeWhile pySpace
        let r4 := r3.dropWhile pySpace
        let trail := (r4.reverse.takeWhile pySpace).reverse
        let value := (r4.reverse.dropWhile pySpace).reverse
        if value.contains '\n' then Option.none
        else some ⟨lead, key, w1 ++ '=' :: w2, value, trail⟩
      else Option.none

/-- The key rewritten or collected for a line: `None` for comments and
non-matching lines, otherwise the matched key. -/
def lineKey (l : List Char) : Option String :=
  if isComment l then Option.none
  else (matchKV (rstripNL l)).map (fun p => String.mk p.key)

/-- The body of the first loop of `_rewrite_kv_conf` for one line:
comments and non-matching lines are copied verbatim; a matched line whose
key is updated is reassembled with the new value and a newline. -/
def rewriteLine (updates : List (String × String)) (line : List Char) : List Char :=
  if isComment line then line
  else
    match matchKV (rstripNL line) with
    | Option.none => line
    | some p =>
        match updates.lookup (String.mk p.key) with
        | some v => p.lead ++ p.key ++ p.eqws ++ v.data ++ p.trail ++ ['\n']
        | Option.none => line

/-- `existing_keys` membership: some non-comment line of `out` matches `k`. -/
def existingKeys (out : List (List Char)) (k : String) : Bool :=
  out.any (fun l => lineKey l == some k)

/-- The `key=value` lines appended for updated keys not found in `out`,
in update order. -/
def appendedLines (updates : List (String × String)) (out : List (List Char)) :
    List (List Char) :=
  (updates.filter (fun kv => !existingKeys out kv.1)).map
    (fun kv => kv.1.data ++ '=' :: kv.2.data ++ ['\n'])

/-- `_rewrite_kv_conf` at the level of the `splitlines(keepends=True)`
line list: rewrite every line, then append missing keys. -/
def rewriteLinesCore (updates : List (String × String)) (lines : List (List Char)) :
    List (List Char) :=
  let out := lines.map (rewriteLine updates)
  out ++ appendedLines updates out

/-- `splitlines(keepends=True)` for text over the `tameChar` alphabet,
whose only line break is the newline character: each line keeps its
terminating newline; a final unterminated segment is kept as-is. Python
also splits at `\x0b`, `\x0c`, `\r` (and `\r\n`), `\x1c`-`\x1e`,
`\x85`, U+2028 and U+2029; the config-transformer theorem below
therefore restricts its sources and update values to `tameChar` text,
where this function is exactly the program's splitting. -/
def linesKeep : List Char → List (List Char)
  | [] => []
  | c :: cs =>
    if c = '\n' then ['\n'] :: linesKeep cs
    else
      match linesKeep cs with
      | [] => [[c]]
      | l :: ls => (c :: l) :: ls

/-- `_rewrite_kv_conf` from source text to destination text (the
`dst.write_text` payload). -/
def _rewrite_kv_conf (updates : List (String × String)) (src : String) : String :=
  String.mk (rewriteLinesCore updates (linesKeep src.data)).flatten

/-- Number of non-comment lines matching key `k`. -/
def countKey (k : String) (lines : List (List Char)) : Nat :=
  (lines.filter (fun l => lineKey l == some k)).length

example : _rewrite_kv_conf [] "# c\nk = 1\nodd line\n" = "# c\nk = 1\nodd line\n" := rfl
example : _rewrite_kv_conf [("k", "2")] "# c\n  k =  1  \nx=3\n"
    = "# c\n  k =  2  \nx=3\n" := rfl
example : _rewrite_kv_conf [("new", "2")] "k = 1\n" = "k = 1\nnew=2\n" := rfl
example : _rewrite_kv_conf [("new", "2")] "x = 1" = "x = 1new=2\n" := rfl
example : countKey "new" (linesKeep ("x = 1new=2\n".data)) = 0 := rfl
example : _rewrite_kv_conf [("k", "2")] "k=0\n// k=c\nk  =1\n"
    = "k=2\n// k=c\nk  =2\n" := rfl

/-- One regular file in a run's artifact directory (`iterdir` entries that
pass `is_file`), with its name and modification time. -/
structure FileEntry where
  name : String
  mtime : Int
deriving DecidableEq, Repr

/-- Python `max(seq, key=mtime)`: the first entry with maximal mtime
(later entries replace the current best only when strictly greater). -/
def maxByMtime (x : FileEntry) (xs : List FileEntry) : FileEntry :=
  xs.foldl (fun best p => if best.mtime < p.mtime then p else best) x

/-- `p.name.endswith(".inprogress")`. -/
def isInprogressName (s : String) : Bool := ".inprogress".data.isSuffixOf s.data

/-- `_find_single_eventlog` from `run.py`: the directory is `none` when
absent (`is_dir()` false), otherwise the list of its regular files. -/
def _find_single_eventlog (dir : Option (List FileEntry)) : Option FileEntry :=
  match dir with
  | Option.none => Option.none
  | some candidates =>
    let finished := candidates.filter (fun p => !isInprogressName p.name)
    match finished with
    | [f] => some f
    | f :: g :: rest => some (maxByMtime f (g :: rest))
    | [] =>
      let inprogress := candidates.filter (fun p => isInprogressName p.name)
      match inprogress with
      | [p] => some p
      | p :: q :: rest => some (maxByMtime p (q :: rest))
      | [] => Option.none

/-- The orchestrator's extraction step around the located artifact:
`parsed = None`, overwritten by the extractor's summary only when an
artifact was located (`if eventlog_path is not None`). -/
def extractIfArtifact (artifact : Option FileEntry)
    (extract : FileEntry → Option TelemetrySummary) : Option TelemetrySummary :=
  match artifact with
  | Option.none => Option.none
  | some p => extract p

/-- A CSV metric cell `(parsed or dict()).get(field, "")`: the empty
string when no summary exists, otherwise the field's value rendered by
the CSV writer (`None` also renders empty). -/
def csvMetricCell (parsed : Option TelemetrySummary)
    (field : TelemetrySummary → Option Int) : String :=
  match parsed with
  | Option.none => ""
  | some s =>
    match field s with
    | Option.none => ""
    | some n => toString n

example :
    _find_single_eventlog (some [⟨"a.log.inprogress", 5⟩, ⟨"a.log", 1⟩])
      = some ⟨"a.log", 1⟩ := rfl
example :
    _find_single_eventlog (some [⟨"a.log", 1⟩, ⟨"b.log", 3⟩, ⟨"c.log.inprogress", 9⟩])
      = some ⟨"b.log", 3⟩ := rfl
example :
    _find_single_eventlog (some [⟨"a.log.inprogress", 1⟩, ⟨"b.log.inprogress", 3⟩])
      = some ⟨"b.log.inprogress", 3⟩ := rfl
example : _find_single_eventlog (some []) = Option.none := rfl
example : _find_single_eventlog Option.none = Option.none := rfl

/-- The sweep kinds accepted by `run_sensitivity` (`--sweep` choices). -/
inductive SweepKind where
  | cxlCapacity
  | align
  | workingSetFit
deriving DecidableEq, Repr

/-- The per-value planning step of `run_sensitivity` (lines building
`updates` and `workload_args` for one sweep value): which configuration
keys are rewritten, to which literal value string, and which workload
argument vector is used. -/
def sweepPlan (sweep : SweepKind) (valueLabel : String)
    (workloadArgsBase : List String) : List (String × String) × List String :=
  match sweep with
  | .cxlCapacity =>
      ([("scache.memory.offHeap.size", valueLabel),
        ("scache.storage.cxl.shared.pool.size", valueLabel)], workloadArgsBase)
  | .align =>
      ([("scache.daemon.ipc.pool.align", valueLabel),
        ("scache.storage.cxl.shared.pool.align", valueLabel)], workloadArgsBase)
  | .workingSetFit =>
      ([], workloadArgsBase.set 1 valueLabel)

example :
    sweepPlan .cxlCapacity "2g" ["32", "200000", "1024", "32"]
      = ([("scache.memory.offHeap.size", "2g"),
          ("scache.storage.cxl.shared.pool.size", "2g")],
         ["32", "200000", "1024", "32"]) := rfl
example :
    sweepPlan .workingSetFit "100000" ["32", "200000", "1024", "32"]
      = ([], ["32", "100000", "1024", "32"]) := rfl

/-- Observable filesystem effects of the orchestrator prefixes modelled
for the pre-flight analysis. -/
inductive Effect where
  | mkdirResultsRoot
  | runCommand
deriving DecidableEq, Repr

/-- Pre-flight outcome: an abort with the process exit code, or clearance
to proceed to the per-variant/per-value loops. -/
inductive Preflight where
  | abort (exit : Int)
  | proceed
deriving DecidableEq, Repr

/-- Which external scripts exist (`is_file`) at the repository root. -/
structure ScriptsFS where
  start_script : Bool
  stop_script : Bool
  submit_script : Bool
deriving DecidableEq, Repr

/-- The variant registry names of `_variants`. -/
def variantNames : List String :=
  ["ultrashuffle-full", "no-partition-homes", "no-remote-cache",
   "service-mediated-fetch", "per-block-files"]

/-- The pre-flight prefix of `run_ablation` (up to the script existence
check): an unknown requested variant aborts with exit 2 before anything
is created; otherwise the results root is created (`mkdir` with
`exist_ok`), and only then are the three external scripts checked, a
missing one aborting with exit 2. No command is run in this prefix. -/
def run_ablation_preflight (requested : List String) (fs : ScriptsFS) :
    List Effect × Preflight :=
  if requested.all (fun n => variantNames.contains n) then
    ([.mkdirResultsRoot],
     if fs.start_script && fs.stop_script && fs.submit_script then .proceed
     else .abort 2)
  else ([], .abort 2)

/-- The pre-flight prefix of `run_sensitivity` (up to the script
existence check): a missing base `scache.conf` aborts with exit 2 before
anything is created; otherwise the results root is created and then the
scripts are checked. -/
def run_sensitivity_preflight (baseConfExists : Bool) (fs : ScriptsFS) :
    List Effect × Preflight :=
  if !baseConfExists then ([], .abort 2)
  else
    ([.mkdirResultsRoot],
     if fs.start_script && fs.stop_script && fs.submit_script then .proceed
     else .abort 2)

theorem maxByMtime_spec (x : FileEntry) (xs : List FileEntry) :
    (maxByMtime x xs = x ∨ maxByMtime x xs ∈ xs)
    ∧ x.mtime ≤ (maxByMtime x xs).mtime
    ∧ ∀ g ∈ xs, g.mtime ≤ (maxByMtime x xs).mtime := by
  induction xs generalizing x with
  | nil => simp [maxByMtime]
  | cons y ys ih =>
    have hunf : maxByMtime x (y :: ys)
        = maxByMtime (if x.mtime < y.mtime then y else x) ys := by
      simp [maxByMtime]
    obtain ⟨hmem, hge, hall⟩ := ih (if x.mtime < y.mtime then y else x)
    rw [hunf]
    by_cases hxy : x.mtime < y.mtime
    · simp only [hxy, if_pos] at hmem hge hall ⊢
      refine ⟨?_, ?_, ?_⟩
      · rcases hmem with h | h
        · right; rw [h]; exact List.mem_cons_self y ys
        · right; exact List.mem_cons_of_mem y h
      · omega
      · intro g hg
        rcases List.mem_cons.mp hg with h | h
        · subst h; exact hge
        · exact hall g h
    · simp only [hxy, if_neg, if_false] at hmem hge hall ⊢
      refine ⟨?_, hge, ?_⟩
      · rcases hmem with h | h
        · left; exact h
        · right; exact List.mem_cons_of_mem y h
      · intro g hg
        rcases List.mem_cons.mp hg with h | h
        · subst h; omega
        · exact hall g h

/-- C3: the artifact-location step prefers the unique complete (non
in-progress) file, else the most recently modified complete file, else
the unique or most recently modified in-progress file; an absent or empty
directory yields no artifact, extraction is skipped, and the CSV metric
cells stay empty (absent, not zero). -/
theorem find_single_eventlog_policy (dir : Option (List FileEntry))
    (ext : FileEntry → Option TelemetrySummary) :
    (dir = Option.none → _find_single_eventlog dir = Option.none)
    ∧ (dir = some [] → _find_single_eventlog dir = Option.none)
    ∧ (∀ candidates f, dir = some candidates →
        candidates.filter (fun p => !isInprogressName p.name) = [f] →
        _find_single_eventlog dir = some f)
    ∧ (∀ candidates, dir = some candidates →
        2 ≤ (candidates.filter (fun p => !isInprogressName p.name)).length →
        ∃ f, _find_single_eventlog dir = some f
          ∧ f ∈ candidates.filter (fun p => !isInprogressName p.name)
          ∧ ∀ g ∈ candidates.filter (fun p => !isInprogressName p.name),
              g.mtime ≤ f.mtime)
    ∧ (∀ candidates p, dir = some candidates →
        candidates.filter (fun p => !isInprogressName p.name) = [] →
        candidates.filter (fun p => isInprogressName p.name) = [p] →
        _find_single_eventlog dir = some p)
    ∧ (∀ candidates, dir = some candidates →
        candidates.filter (fun p => !isInprogressName p.name) = [] →
        2 ≤ (candidates.filter (fun p => isInprogressName p.name)).length →
        ∃ p, _find_single_eventlog dir = some p
          ∧ p ∈ candidates.filter (fun p => isInprogressName p.name)
          ∧ ∀ g ∈ candidates.filter (fun p => isInprogressName p.name),
              g.mtime ≤ p.mtime)
    ∧ (_find_single_eventlog dir = Option.none →
        extractIfArtifact (_find_single_eventlog dir) ext = Option.none
        ∧ ∀ field, csvMetricCell (extractIfArtifact (_find_single_eventlog dir) ext)
            field = "") := by
  refine ⟨?_, ?_, ?_, ?_, ?_, ?_, ?_⟩
  · intro h; subst h; rfl
  · intro h; subst h; rfl
  · intro candidates f hdir hf
    subst hdir
    simp only [_find_single_eventlog, hf]
  · intro candidates hdir hlen
    subst hdir
    match hf : candidates.filter (fun p => !isInprogressName p.name) with
    | [] => rw [hf] at hlen; simp at hlen
    | [f] => rw [hf] at hlen; simp at hlen
    | f :: g :: rest =>
      refine ⟨maxByMtime f (g :: rest), ?_, ?_, ?_⟩
      · simp only [_find_single_eventlog, hf]
      · obtain ⟨hmem, _, _⟩ := maxByMtime_spec f (g :: rest)
        rw [hf]
        rcases hmem with h | h
        · rw [h]; exact List.mem_cons_self f (g :: rest)
        · exact List.mem_cons_of_mem f h
      · intro q hq
        obtain ⟨_, hge, hall⟩ := maxByMtime_spec f (g :: rest)
        rw [hf] at hq
        rcases List.mem_cons.mp hq with h | h
        · subst h; exact hge
        · exact hall q h
  · intro candidates p hdir hfin hip
    subst hdir
    simp only [_find_single_eventlog, hfin, hip]
  · intro candidates hdir hfin hlen
    subst hdir
    match hf : candidates.filter (fun p => isInprogressName p.name) with
    | [] => rw [hf] at hlen; simp at hlen
    | [p] => rw [hf] at hlen; simp at hlen
    | p :: q :: rest =>
      refine ⟨maxByMtime p (q :: rest), ?_, ?_, ?_⟩
      · simp only [_find_single_eventlog, hfin, hf]
      · obtain ⟨hmem, _, _⟩ := maxByMtime_spec p (q :: rest)
        rw [hf]
        rcases hmem with h | h
        · rw [h]; exact List.mem_cons_self p (q :: rest)
        · exact List.mem_cons_of_mem p h
      · intro g hg
        obtain ⟨_, hge, hall⟩ := maxByMtime_spec p (q :: rest)
        rw [hf] at hg
        rcases List.mem_cons.mp hg with h | h
        · subst h; exact hge
        · exact hall g h
  · intro h
    rw [h]
    exact ⟨rfl, fun _ => rfl⟩

/-- Witness for C3 at concrete inputs: a directory holding one complete
and one (more recent) in-progress file selects the complete file. -/
theorem find_single_eventlog_policy_witness :
    _find_single_eventlog (some [⟨"app-1.log.inprogress", 9⟩, ⟨"app-1.log", 2⟩])
      = some ⟨"app-1.log", 2⟩ :=
  (find_single_eventlog_policy
      (some [⟨"app-1.log.inprogress", 9⟩, ⟨"app-1.log", 2⟩])
      (fun _ => Option.none)).2.2.1
    [⟨"app-1.log.inprogress", 9⟩, ⟨"app-1.log", 2⟩] ⟨"app-1.log", 2⟩ rfl rfl

/-- C8: the capacity sweep rewrites the memory pool size key and the
shared pool size key to the literal value string; the alignment sweep
rewrites both alignment keys to the literal value; the working-set sweep
rewrites no configuration key and replaces exactly the fixed positional
workload argument at index 1 with the value. -/
theorem sweep_value_mapping (v : String) (base : List String)
    (h2 : 2 ≤ base.length) :
    sweepPlan .cxlCapacity v base
      = ([("scache.memory.offHeap.size", v),
          ("scache.storage.cxl.shared.pool.size", v)], base)
    ∧ sweepPlan .align v base
      = ([("scache.daemon.ipc.pool.align", v),
          ("scache.storage.cxl.shared.pool.align", v)], base)
    ∧ (sweepPlan .workingSetFit v base).1 = []
    ∧ (sweepPlan .workingSetFit v base).2.length = base.length
    ∧ (sweepPlan .workingSetFit v base).2[1]? = some v
    ∧ ∀ i, i ≠ 1 → (sweepPlan .workingSetFit v base).2[i]? = base[i]? := by
  refine ⟨rfl, rfl, rfl, ?_, ?_, ?_⟩
  · simp [sweepPlan]
  · simp only [sweepPlan]
    rw [List.getElem?_set_self]
    · omega
  · intro i hi
    simp only [sweepPlan]
    rw [List.getElem?_set_ne]
    omega

/-- Witness for C8 at the default workload argument vector and the spec's
example value: the second positional argument is replaced. -/
theorem sweep_value_mapping_witness :
    sweepPlan .cxlCapacity "2g" ["32", "200000", "1024", "32"]
      = ([("scache.memory.offHeap.size", "2g"),
          ("scache.storage.cxl.shared.pool.size", "2g")],
         ["32", "200000", "1024", "32"])
    ∧ (sweepPlan .workingSetFit "100000" ["32", "200000", "1024", "32"]).2[1]?
      = some "100000" :=
  ⟨(sweep_value_mapping "2g" ["32", "200000", "1024", "32"] (by decide)).1,
   (sweep_value_mapping "100000" ["32", "200000", "1024", "32"]
      (by decide)).2.2.2.2.1⟩

/-- Counterexample to C9 as stated: with all variants known and the
submission script missing, the ablation pre-flight aborts with exit 2,
but only after the results root directory has been created — the
`results_root.mkdir` call precedes the script existence check, so a new
results directory is made before the pre-flight failure. -/
theorem preflight_results_root_counterexample :
    run_ablation_preflight ["ultrashuffle-full"] ⟨true, true, false⟩
      = ([.mkdirResultsRoot], .abort 2)
    ∧ Effect.mkdirResultsRoot
      ∈ (run_ablation_preflight ["ultrashuffle-full"] ⟨true, true, false⟩).1 := by
  exact ⟨rfl, by decide⟩

/-- C9 (amended): when a required external lifecycle or submission script
is missing, both orchestrator entry points abort with exit code 2 before
any command is run (no lifecycle or submission invocation, hence no run
directories or result rows), but the empty results root directory itself
is created before the script check fails. -/
theorem preflight_missing_script_aborts (requested : List String) (fs : ScriptsFS)
    (hknown : requested.all (fun n => variantNames.contains n) = true)
    (hmiss : fs.start_script = false ∨ fs.stop_script = false
      ∨ fs.submit_script = false) :
    (run_ablation_preflight requested fs).2 = .abort 2
    ∧ (run_ablation_preflight requested fs).1 = [.mkdirResultsRoot]
    ∧ Effect.runCommand ∉ (run_ablation_preflight requested fs).1
    ∧ (run_sensitivity_preflight true fs).2 = .abort 2
    ∧ (run_sensitivity_preflight true fs).1 = [.mkdirResultsRoot]
    ∧ Effect.runCommand ∉ (run_sensitivity_preflight true fs).1 := by
  have hcond : (fs.start_script && fs.stop_script && fs.submit_script) = false := by
    rcases hmiss with h | h | h <;> simp [h]
  have h1 : run_ablation_preflight requested fs = ([.mkdirResultsRoot], .abort 2) := by
    unfold run_ablation_preflight
    rw [if_pos hknown, hcond]
    simp
  have h2 : run_sensitivity_preflight true fs = ([.mkdirResultsRoot], .abort 2) := by
    unfold run_sensitivity_preflight
    rw [hcond]
    simp
  rw [h1, h2]
  exact ⟨rfl, rfl, by decide, rfl, rfl, by decide⟩

/-- Witness for C9 (amended) at a concrete state: submission script
missing, single known variant requested. -/
theorem preflight_missing_script_aborts_witness :
    (run_ablation_preflight ["no-remote-cache"] ⟨true, true, false⟩).2 = .abort 2
    ∧ (run_ablation_preflight ["no-remote-cache"] ⟨true, true, false⟩).1
      = [.mkdirResultsRoot] :=
  ⟨(preflight_missing_script_aborts ["no-remote-cache"] ⟨true, true, false⟩
      (by decide) (Or.inr (Or.inr rfl))).1,
   (preflight_missing_script_aborts ["no-remote-cache"] ⟨true, true, false⟩
      (by decide) (Or.inr (Or.inr rfl))).2.1⟩

def PyVal.isNonfiniteFloat : PyVal → Bool
  | .float (.finite _) => false
  | .float _ => true
  | _ => false

/-- Counterexample to C7 as stated: the numeric-coercion helper is not
total — on a non-finite float (here NaN, which Python's `json.loads`
accepts in event lines) the bare `int(value)` call sits outside the
`try` block and raises instead of returning the default. -/
theorem to_int_nan_counterexample :
    _to_int (.float .nan) (some 0) = .error ()
    ∧ _to_int (.float .inf) (some 0) = .error () :=
  ⟨rfl, rfl⟩

/-- C7 (amended): for every input value other than a non-finite float,
the coercion helper returns an integer (or the supplied default) without
raising: floats, integers and booleans coerce to their integer value,
strings parsing as integers yield the parsed value, and `None`,
non-numeric strings, lists and dicts yield the default. -/
theorem to_int_total_spec (v : PyVal) (d : Int)
    (h : v.isNonfiniteFloat = false) :
    (∃ n : Int, _to_int v (some d) = .ok (some n))
    ∧ (∀ n : Int, _to_int (.int n) (some d) = .ok (some n))
    ∧ (∀ b : Bool, _to_int (.bool b) (some d) = .ok (some (if b then 1 else 0)))
    ∧ (∀ q : ℚ, _to_int (.float (.finite q)) (some d) = .ok (some (pyTrunc q)))
    ∧ (∀ s n, pyIntOfString s = some n → _to_int (.str s) (some d) = .ok (some n))
    ∧ (∀ s, pyIntOfString s = Option.none → _to_int (.str s) (some d) = .ok (some d))
    ∧ _to_int PyVal.none (some d) = .ok (some d)
    ∧ (∀ l, _to_int (.list l) (some d) = .ok (some d))
    ∧ (∀ es, _to_int (.dict es) (some d) = .ok (some d)) := by
  refine ⟨?_, fun n => rfl, fun b => rfl, fun q => rfl, ?_, ?_, rfl, fun l => rfl,
    fun es => rfl⟩
  · cases v with
    | none => exact ⟨d, rfl⟩
    | bool b => exact ⟨if b then 1 else 0, rfl⟩
    | int n => exact ⟨n, rfl⟩
    | float f =>
      cases f with
      | finite q => exact ⟨pyTrunc q, rfl⟩
      | nan => simp [PyVal.isNonfiniteFloat] at h
      | inf => simp [PyVal.isNonfiniteFloat] at h
      | ninf => simp [PyVal.isNonfiniteFloat] at h
    | str s =>
      cases hp : pyIntOfString s with
      | none => exact ⟨d, by simp [_to_int, hp]⟩
      | some n => exact ⟨n, by simp [_to_int, hp]⟩
    | list l => exact ⟨d, rfl⟩
    | dict es => exact ⟨d, rfl⟩
  · intro s n hp; simp [_to_int, hp]
  · intro s hp; simp [_to_int, hp]

/-- Witness for C7 (amended) at concrete inputs: a numeric string with
default 0, and the boolean conjunct at `true`. -/
theorem to_int_total_spec_witness :
    (∃ n : Int, _to_int (.str "41") (some 0) = .ok (some n))
    ∧ _to_int (.bool true) (some 0) = .ok (some 1) :=
  ⟨(to_int_total_spec (.str "41") 0 rfl).1,
   (to_int_total_spec (.str "41") 0 rfl).2.2.1 true⟩

/-- C10: in every summary the extractor produces, the total shuffle read
byte count is the sum of the remote and local shuffle read byte counts. -/
theorem shuffle_read_bytes_sum_eq (events : List PyVal) (s : TelemetrySummary)
    (h : parse_eventlog events = .ok s) :
    s.shuffle_read_bytes_sum
      = s.shuffle_read_remote_bytes_sum + s.shuffle_read_local_bytes_sum := by
  unfold parse_eventlog at h
  cases hacc : events.foldlM step ParseAcc.empty with
  | error e => rw [hacc] at h; exact absurd h (by simp [Bind.bind, Except.bind])
  | ok acc =>
    rw [hacc] at h
    have hs : s = mkSummary acc := by
      simpa [Bind.bind, Except.bind, pure, Except.pure] using h.symm
    subst hs
    rfl

/-- Witness for C10 on a concrete log with one task-end carrying remote
and local read bytes. -/
theorem shuffle_read_bytes_sum_eq_witness :
    ∃ s, parse_eventlog
      [.dict [("Event", .str "SparkListenerTaskEnd"),
              ("Task Metrics", .dict
                [("Shuffle Read Metrics", .dict
                  [("Remote Bytes Read", .int 100),
                   ("Local Bytes Read", .int 28)])])]] = .ok s
      ∧ s.shuffle_read_bytes_sum
        = s.shuffle_read_remote_bytes_sum + s.shuffle_read_local_bytes_sum := by
  have h : parse_eventlog
      [.dict [("Event", .str "SparkListenerTaskEnd"),
              ("Task Metrics", .dict
                [("Shuffle Read Metrics", .dict
                  [("Remote Bytes Read", .int 100),
                   ("Local Bytes Read", .int 28)])])]]
      = .ok ((parse_eventlog
          [.dict [("Event", .str "SparkListenerTaskEnd"),
                  ("Task Metrics", .dict
                    [("Shuffle Read Metrics", .dict
                      [("Remote Bytes Read", .int 100),
                       ("Local Bytes Read", .int 28)])])]]).toOption.getD
          (mkSummary ParseAcc.empty)) := rfl
  exact ⟨_, h, shuffle_read_bytes_sum_eq _ _ h⟩

theorem parse_ok_mkSummary (events : List PyVal) (s : TelemetrySummary)
    (h : parse_eventlog events = .ok s) :
    ∃ acc, events.foldlM step ParseAcc.empty = .ok acc ∧ s = mkSummary acc := by
  unfold parse_eventlog at h
  cases hacc : events.foldlM step ParseAcc.empty with
  | error e => rw [hacc] at h; exact absurd h (by simp [Bind.bind, Except.bind])
  | ok acc =>
    rw [hacc] at h
    exact ⟨acc, rfl, by simpa [Bind.bind, Except.bind, pure, Except.pure] using h.symm⟩

theorem mkSummary_app_fields (acc : ParseAcc) :
    (mkSummary acc).app_start_ts_ms = acc.app_start_ts
    ∧ (mkSummary acc).app_end_ts_ms = acc.app_end_ts
    ∧ (mkSummary acc).app_duration_ms
      = (match acc.app_start_ts, acc.app_end_ts with
         | some st, some en => if st ≤ en then some (en - st) else Option.none
         | _, _ => Option.none) :=
  ⟨rfl, rfl, rfl⟩

/-- C4: the application duration is end minus start exactly when both
timestamps are present and end ≥ start, and absent otherwise; on a log
with one application-start at 1000 and one application-end at 4500 the
duration is exactly 3500, and with end < start it is absent. -/
theorem app_duration_spec (events : List PyVal) (s : TelemetrySummary)
    (h : parse_eventlog events = .ok s) :
    (∀ st en, s.app_start_ts_ms = some st → s.app_end_ts_ms = some en →
        st ≤ en → s.app_duration_ms = some (en - st))
    ∧ (∀ st en, s.app_start_ts_ms = some st → s.app_end_ts_ms = some en →
        en < st → s.app_duration_ms = Option.none)
    ∧ (s.app_start_ts_ms = Option.none → s.app_duration_ms = Option.none)
    ∧ (s.app_end_ts_ms = Option.none → s.app_duration_ms = Option.none)
    ∧ (parse_eventlog
        [.dict [("Event", .str "SparkListenerApplicationStart"),
                ("Timestamp", .int 1000)],
         .dict [("Event", .str "SparkListenerApplicationEnd"),
                ("Timestamp", .int 4500)]]).map (fun t => t.app_duration_ms)
        = .ok (some 3500)
    ∧ (parse_eventlog
        [.dict [("Event", .str "SparkListenerApplicationStart"),
                ("Timestamp", .int 1000)],
         .dict [("Event", .str "SparkListenerApplicationEnd"),
                ("Timestamp", .int 400)]]).map (fun t => t.app_duration_ms)
        = .ok Option.none := by
  obtain ⟨acc, -, hs⟩ := parse_ok_mkSummary events s h
  subst hs
  obtain ⟨h1, h2, h3⟩ := mkSummary_app_fields acc
  refine ⟨?_, ?_, ?_, ?_, rfl, rfl⟩
  · intro st en hst hen hle
    rw [h1] at hst; rw [h2] at hen
    rw [h3, hst, hen]
    simp [hle]
  · intro st en hst hen hlt
    rw [h1] at hst; rw [h2] at hen
    rw [h3, hst, hen]
    simp [Int.not_le.mpr hlt]
  · intro hst
    rw [h1] at hst
    rw [h3, hst]
  · intro hen
    rw [h2] at hen
    rw [h3, hen]
    cases acc.app_start_ts <;> rfl

/-- Witness for C4: the concrete 1000/4500 log yields duration 3500 via
the general conjunct. -/
theorem app_duration_spec_witness :
    ((parse_eventlog
        [.dict [("Event", .str "SparkListenerApplicationStart"),
                ("Timestamp", .int 1000)],
         .dict [("Event", .str "SparkListenerApplicationEnd"),
                ("Timestamp", .int 4500)]]).toOption.getD
      (mkSummary ParseAcc.empty)).app_duration_ms = some 3500 := by
  have h : parse_eventlog
      [.dict [("Event", .str "SparkListenerApplicationStart"),
              ("Timestamp", .int 1000)],
       .dict [("Event", .str "SparkListenerApplicationEnd"),
              ("Timestamp", .int 4500)]]
      = .ok ((parse_eventlog
          [.dict [("Event", .str "SparkListenerApplicationStart"),
                  ("Timestamp", .int 1000)],
           .dict [("Event", .str "SparkListenerApplicationEnd"),
                  ("Timestamp", .int 4500)]]).toOption.getD
          (mkSummary ParseAcc.empty)) := rfl
  have hd := (app_duration_spec _ _ h).1 1000 4500 rfl rfl (by omega)
  simpa using hd

theorem to_int_cases (v : PyVal) :
    (∀ d, _to_int v d = .ok d)
    ∨ (∃ n, ∀ d, _to_int v d = .ok (some n))
    ∨ (∀ d, _to_int v d = .error ()) := by
  cases v with
  | none => exact Or.inl (fun d => rfl)
  | bool b => exact Or.inr (Or.inl ⟨if b then 1 else 0, fun d => rfl⟩)
  | int n => exact Or.inr (Or.inl ⟨n, fun d => rfl⟩)
  | float f =>
    cases f with
    | finite q => exact Or.inr (Or.inl ⟨pyTrunc q, fun d => rfl⟩)
    | nan => exact Or.inr (Or.inr (fun d => rfl))
    | inf => exact Or.inr (Or.inr (fun d => rfl))
    | ninf => exact Or.inr (Or.inr (fun d => rfl))
  | str s =>
    cases hp : pyIntOfString s with
    | none => exact Or.inl (fun d => by simp [_to_int, hp])
    | some n => exact Or.inr (Or.inl ⟨n, fun d => by simp [_to_int, hp]⟩)
  | list l => exact Or.inl (fun d => rfl)
  | dict es => exact Or.inl (fun d => rfl)

/-- Whether an event is an application-start record whose field `f` is
truthy, and that field's raw value: the update the accumulator merge
`field = evt.get(f) or field` applies. -/
def startFieldUpd (f : String) (evt : PyVal) : Option PyVal :=
  match evt with
  | .dict entries =>
    if pyEqStr ((entries.lookup "Event").getD .none) "SparkListenerApplicationStart"
    then
      if pyTruthy ((entries.lookup f).getD .none)
      then some ((entries.lookup f).getD .none)
      else Option.none
    else Option.none
  | _ => Option.none

/-- The coerced timestamp an application-start record contributes, when
its `Timestamp` coerces independently of the default (the update the
merge `app_start_ts = _to_int(evt.get("Timestamp"), app_start_ts)`
applies). -/
def startTsUpd (evt : PyVal) : Option Int :=
  match evt with
  | .dict entries =>
    if pyEqStr ((entries.lookup "Event").getD .none) "SparkListenerApplicationStart"
    then
      match _to_int ((entries.lookup "Timestamp").getD .none) Option.none with
      | .ok (some n) => some n
      | _ => Option.none
    else Option.none
  | _ => Option.none

theorem step_app_effects (acc : ParseAcc) (e : PyVal) (a : ParseAcc)
    (h : step acc e = .ok a) :
    a.app_id = (startFieldUpd "App ID" e).getD acc.app_id
    ∧ a.app_name = (startFieldUpd "App Name" e).getD acc.app_name
    ∧ a.app_start_ts = ((startTsUpd e).map some).getD acc.app_start_ts
    ∧ (a.stages = acc.stages ∨ ∃ k v, a.stages = upsertStage acc.stages k v) := by
  cases e with
  | dict entries =>
    by_cases h1 :
        pyEqStr ((entries.lookup "Event").getD .none) "SparkListenerApplicationStart"
    · simp only [step, h1, if_true] at h
      rcases to_int_cases ((entries.lookup "Timestamp").getD .none) with hc | ⟨n, hc⟩ | hc
      · rw [hc] at h
        cases h
        have hts : startTsUpd (.dict entries) = Option.none := by
          simp [startTsUpd, h1, hc Option.none]
        simp [startFieldUpd, h1, hts, pyOr]
        constructor
        · by_cases ht : pyTruthy ((entries.lookup "App ID").getD .none) <;> simp [ht]
        · by_cases ht : pyTruthy ((entries.lookup "App Name").getD .none) <;> simp [ht]
      · rw [hc] at h
        cases h
        have hts : startTsUpd (.dict entries) = some n := by
          simp [startTsUpd, h1, hc Option.none]
        simp [startFieldUpd, h1, hts, pyOr]
        constructor
        · by_cases ht : pyTruthy ((entries.lookup "App ID").getD .none) <;> simp [ht]
        · by_cases ht : pyTruthy ((entries.lookup "App Name").getD .none) <;> simp [ht]
      · rw [hc] at h
        cases h
    · have hid : startFieldUpd "App ID" (.dict entries) = Option.none := by
        simp [startFieldUpd, h1]
      have hnm : startFieldUpd "App Name" (.dict entries) = Option.none := by
        simp [startFieldUpd, h1]
      have hts : startTsUpd (.dict entries) = Option.none := by
        simp [startTsUpd, h1]
      rw [hid, hnm, hts]
      simp only [Option.map_none, Option.getD_none]
      simp only [step, h1, Bool.false_eq_true, if_false] at h
      by_cases h2 :
          pyEqStr ((entries.lookup "Event").getD .none) "SparkListenerApplicationEnd"
      · simp only [h2, if_true] at h
        cases hti : _to_int ((entries.lookup "Timestamp").getD .none) acc.app_end_ts with
        | error e => rw [hti] at h; cases h
        | ok en => rw [hti] at h; cases h; exact ⟨rfl, rfl, rfl, Or.inl rfl⟩
      · simp only [h2, Bool.false_eq_true, if_false] at h
        by_cases h3 :
            pyEqStr ((entries.lookup "Event").getD .none) "SparkListenerStageSubmitted"
        · simp only [h3, if_true] at h
          cases hinfo :
              pyOr ((entries.lookup "Stage Info").getD .none) (.dict []) with
          | dict ientries =>
            rw [hinfo] at h
            dsimp only at h
            cases hsid : _to_int ((ientries.lookup "Stage ID").getD .none) Option.none with
            | error e => rw [hsid] at h; cases h
            | ok sid? =>
              rw [hsid] at h
              cases sid? with
              | none => cases h; exact ⟨rfl, rfl, rfl, Or.inl rfl⟩
              | some sid =>
                dsimp only at h
                cases hsub : _to_int ((ientries.lookup "Submission Time").getD .none)
                    ((acc.stages.lookup sid).getD StageAcc.empty).submission_time_ms with
                | error e => rw [hsub] at h; cases h
                | ok sub =>
                  rw [hsub] at h; cases h
                  exact ⟨rfl, rfl, rfl, Or.inr ⟨sid, _, rfl⟩⟩
          | none => rw [hinfo] at h; cases h
          | bool b => rw [hinfo] at h; cases h
          | int n => rw [hinfo] at h; cases h
          | float f => rw [hinfo] at h; cases h
          | str s => rw [hinfo] at h; cases h
          | list l => rw [hinfo] at h; cases h
        · simp only [h3, Bool.false_eq_true, if_false] at h
          by_cases h4 :
              pyEqStr ((entries.lookup "Event").getD .none) "SparkListenerStageCompleted"
          · simp only [h4, if_true] at h
            cases hinfo :
                pyOr ((entries.lookup "Stage Info").getD .none) (.dict []) with
            | dict ientries =>
              rw [hinfo] at h
              dsimp only at h
              cases hsid : _to_int ((ientries.lookup "Stage ID").getD .none) Option.none with
              | error e => rw [hsid] at h; cases h
              | ok sid? =>
                rw [hsid] at h
                cases sid? with
                | none => cases h; exact ⟨rfl, rfl, rfl, Or.inl rfl⟩
                | some sid =>
                  dsimp only at h
                  cases hcomp : _to_int ((ientries.lookup "Completion Time").getD .none)
                      ((acc.stages.lookup sid).getD StageAcc.empty).completion_time_ms with
                  | error e => rw [hcomp] at h; cases h
                  | ok comp =>
                    rw [hcomp] at h
                    cases hnt : _to_int ((ientries.lookup "Number of Tasks").getD .none)
                        ((acc.stages.lookup sid).getD StageAcc.empty).num_tasks with
                    | error e => rw [hnt] at h; cases h
                    | ok nt =>
                      rw [hnt] at h; cases h
                      exact ⟨rfl, rfl, rfl, Or.inr ⟨sid, _, rfl⟩⟩
            | none => rw [hinfo] at h; cases h
            | bool b => rw [hinfo] at h; cases h
            | int n => rw [hinfo] at h; cases h
            | float f => rw [hinfo] at h; cases h
            | str s => rw [hinfo] at h; cases h
            | list l => rw [hinfo] at h; cases h
          · simp only [h4, Bool.false_eq_true, if_false] at h
            by_cases h5 :
                pyEqStr ((entries.lookup "Event").getD .none) "SparkListenerTaskEnd"
            · simp only [h5, if_true] at h
              cases hm : pyOr ((entries.lookup "Task Metrics").getD .none) (.dict []) with
              | dict ms =>
                rw [hm] at h
                dsimp only at h
                simp only [Bind.bind, Except.bind] at h
                cases he1 : toIntZ ((ms.lookup "Executor Run Time").getD .none) with
                | error e => rw [he1] at h; cases h
                | ok ert =>
                  rw [he1] at h
                  cases he2 : toIntZ ((ms.lookup "JVM GC Time").getD .none) with
                  | error e => rw [he2] at h; cases h
                  | ok gc =>
                    rw [he2] at h
                    cases hsw : pyOr ((ms.lookup "Shuffle Write Metrics").getD .none)
                        (.dict []) with
                    | dict sws =>
                      rw [hsw] at h
                      dsimp only at h
                      cases he3 : toIntZ ((sws.lookup "Shuffle Bytes Written").getD .none) with
                      | error e => rw [he3] at h; cases h
                      | ok swb =>
                        rw [he3] at h
                        cases he4 : toIntZ
                            ((sws.lookup "Shuffle Records Written").getD .none) with
                        | error e => rw [he4] at h; cases h
                        | ok swr =>
                          rw [he4] at h
                          cases he5 : toIntZ ((sws.lookup "Shuffle Write Time").getD .none) with
                          | error e => rw [he5] at h; cases h
                          | ok swt =>
                            rw [he5] at h
                            cases hsr : pyOr ((ms.lookup "Shuffle Read Metrics").getD .none)
                                (.dict []) with
                            | dict srs =>
                              rw [hsr] at h
                              dsimp only at h
                              cases he6 : toIntZ
                                  ((srs.lookup "Remote Bytes Read").getD .none) with
                              | error e => rw [he6] at h; cases h
                              | ok srrem =>
                                rw [he6] at h
                                cases he7 : toIntZ
                                    ((srs.lookup "Local Bytes Read").getD .none) with
                                | error e => rw [he7] at h; cases h
                                | ok srloc =>
                                  rw [he7] at h
                                  cases he8 : toIntZ ((srs.lookup "Records Read").getD .none) with
                                  | error e => rw [he8] at h; cases h
                                  | ok srrec =>
                                    rw [he8] at h
                                    cases he9 : toIntZ
                                        ((srs.lookup "Fetch Wait Time").getD .none) with
                                    | error e => rw [he9] at h; cases h
                                    | ok srw =>
                                      rw [he9] at h
                                      dsimp only at h
                                      simp only [pure, Except.pure] at h
                                      cases h
                                      exact ⟨rfl, rfl, rfl, Or.inl rfl⟩
                            | none => rw [hsr] at h; cases h
                            | bool b => rw [hsr] at h; cases h
                            | int n => rw [hsr] at h; cases h
                            | float f => rw [hsr] at h; cases h
                            | str s => rw [hsr] at h; cases h
                            | list l => rw [hsr] at h; cases h
                    | none => rw [hsw] at h; cases h
                    | bool b => rw [hsw] at h; cases h
                    | int n => rw [hsw] at h; cases h
                    | float f => rw [hsw] at h; cases h
                    | str s => rw [hsw] at h; cases h
                    | list l => rw [hsw] at h; cases h
              | none => rw [hm] at h; cases h
              | bool b => rw [hm] at h; cases h
              | int n => rw [hm] at h; cases h
              | float f => rw [hm] at h; cases h
              | str s => rw [hm] at h; cases h
              | list l => rw [hm] at h; cases h
            · simp only [h5, Bool.false_eq_true, if_false] at h
              cases h
              exact ⟨rfl, rfl, rfl, Or.inl rfl⟩
  | none => cases h
  | bool b => cases h
  | int n => cases h
  | float f => cases h
  | str s => cases h
  | list l => cases h

theorem getLast?_cons_eq (x : α) (xs : List α) :
    (x :: xs).getLast? = some ((xs.getLast?).getD x) := by
  induction xs generalizing x with
  | nil => rfl
  | cons y ys ih => rw [List.getLast?_cons_cons]; simp [ih y]

theorem foldlM_app_fields (events : List PyVal) (acc acc' : ParseAcc)
    (h : events.foldlM step acc = .ok acc') :
    acc'.app_id = ((events.filterMap (startFieldUpd "App ID")).getLast?).getD acc.app_id
    ∧ acc'.app_name
      = ((events.filterMap (startFieldUpd "App Name")).getLast?).getD acc.app_name
    ∧ acc'.app_start_ts
      = (((events.filterMap startTsUpd).getLast?).map some).getD acc.app_start_ts := by
  induction events generalizing acc with
  | nil =>
    simp only [List.foldlM_nil, pure, Except.pure] at h
    cases h
    simp
  | cons e rest ih =>
    rw [List.foldlM_cons] at h
    cases hstep : step acc e with
    | error err =>
      rw [hstep] at h
      simp [Bind.bind, Except.bind] at h
    | ok a =>
      rw [hstep] at h
      simp only [Bind.bind, Except.bind] at h
      obtain ⟨hid, hnm, hts⟩ := ih a h
      obtain ⟨sid, snm, sts, -⟩ := step_app_effects acc e a hstep
      refine ⟨?_, ?_, ?_⟩
      · rw [hid, sid]
        cases hu : startFieldUpd "App ID" e with
        | none => simp [List.filterMap_cons, hu]
        | some v => simp [List.filterMap_cons, hu, getLast?_cons_eq]
      · rw [hnm, snm]
        cases hu : startFieldUpd "App Name" e with
        | none => simp [List.filterMap_cons, hu]
        | some v => simp [List.filterMap_cons, hu, getLast?_cons_eq]
      · rw [hts, sts]
        cases hu : startTsUpd e with
        | none => simp [List.filterMap_cons, hu]
        | some n =>
          simp only [List.filterMap_cons, hu, getLast?_cons_eq, Option.map_some,
            Option.getD_some]
          cases (rest.filterMap startTsUpd).getLast? <;> simp

/-- Counterexample to C1 as stated: in a log with two application-start
records carrying ids `app-a` then `app-b` (and names `x` then `y`), the
summary's application id is `app-b` — the accumulator merge
`app_id = evt.get("App ID") or app_id` lets the latest truthy value win,
not the first. -/
theorem app_identity_first_wins_counterexample :
    (parse_eventlog
      [.dict [("Event", .str "SparkListenerApplicationStart"), ("Timestamp", .int 1),
              ("App ID", .str "app-a"), ("App Name", .str "x")],
       .dict [("Event", .str "SparkListenerApplicationStart"), ("Timestamp", .int 2),
              ("App ID", .str "app-b"), ("App Name", .str "y")]]).map
      (fun s => (s.app_id, s.app_name)) = .ok (.str "app-b", .str "y")
    ∧ (PyVal.str "app-b" ≠ PyVal.str "app-a") := by
  refine ⟨rfl, fun hcontr => ?_⟩
  injection hcontr with h2
  exact absurd h2 (by decide)

/-- C1 (amended): across multiple application-start records, the
application id and name in the summary come from the latest record
supplying a truthy (non-null, non-empty) value — the merge
`field = evt.get(...) or field` overwrites with every truthy occurrence —
while the application start timestamp comes from the latest record whose
timestamp coerces to an integer. -/
theorem app_identity_latest_wins (events : List PyVal) (s : TelemetrySummary)
    (h : parse_eventlog events = .ok s) :
    s.app_id = ((events.filterMap (startFieldUpd "App ID")).getLast?).getD .none
    ∧ s.app_name
      = ((events.filterMap (startFieldUpd "App Name")).getLast?).getD .none
    ∧ s.app_start_ts_ms = (events.filterMap startTsUpd).getLast? := by
  obtain ⟨acc, hacc, hs⟩ := parse_ok_mkSummary events s h
  subst hs
  obtain ⟨hid, hnm, hts⟩ := foldlM_app_fields events ParseAcc.empty acc hacc
  refine ⟨hid, hnm, ?_⟩
  show acc.app_start_ts = (events.filterMap startTsUpd).getLast?
  rw [hts]
  cases (events.filterMap startTsUpd).getLast? <;> rfl

/-- Witness for C1 (amended) on the two-start log: latest truthy id wins. -/
theorem app_identity_latest_wins_witness :
    ((parse_eventlog
      [.dict [("Event", .str "SparkListenerApplicationStart"), ("Timestamp", .int 1),
              ("App ID", .str "app-a"), ("App Name", .str "x")],
       .dict [("Event", .str "SparkListenerApplicationStart"), ("Timestamp", .int 2),
              ("App ID", .str "app-b"), ("App Name", .str "y")]]).toOption.getD
      (mkSummary ParseAcc.empty)).app_id = .str "app-b" := by
  have h : parse_eventlog
      [.dict [("Event", .str "SparkListenerApplicationStart"), ("Timestamp", .int 1),
              ("App ID", .str "app-a"), ("App Name", .str "x")],
       .dict [("Event", .str "SparkListenerApplicationStart"), ("Timestamp", .int 2),
              ("App ID", .str "app-b"), ("App Name", .str "y")]]
      = .ok ((parse_eventlog
        [.dict [("Event", .str "SparkListenerApplicationStart"), ("Timestamp", .int 1),
                ("App ID", .str "app-a"), ("App Name", .str "x")],
         .dict [("Event", .str "SparkListenerApplicationStart"), ("Timestamp", .int 2),
                ("App ID", .str "app-b"), ("App Name", .str "y")]]).toOption.getD
        (mkSummary ParseAcc.empty)) := rfl
  exact ((app_identity_latest_wins _ _ h).1).trans rfl

theorem upsertStage_keys_nodup (l : List (Int × StageAcc)) (k : Int) (v : StageAcc)
    (h : (l.map Prod.fst).Nodup) : ((upsertStage l k v).map Prod.fst).Nodup := by
  unfold upsertStage
  by_cases hmem : l.any (fun p => p.1 == k)
  · rw [if_pos hmem]
    have hkeys : (l.map (fun p => if p.1 == k then (k, v) else p)).map Prod.fst
        = l.map Prod.fst := by
      rw [List.map_map]
      apply List.map_congr_left
      intro p hp
      by_cases hk : p.1 == k
      · simp only [Function.comp_apply, hk, if_true]
        exact (beq_iff_eq.mp hk).symm
      · have hne : p.1 ≠ k := by simpa using hk
        simp [hne]
    rw [hkeys]; exact h
  · rw [if_neg hmem]
    rw [List.map_append]
    have hk : k ∉ l.map Prod.fst := by
      intro hin
      apply hmem
      obtain ⟨p, hp, hfst⟩ := List.mem_map.mp hin
      exact List.any_eq_true.mpr ⟨p, hp, by simp [hfst]⟩
    simp [List.nodup_append, h, hk]

theorem foldlM_stage_keys_nodup (events : List PyVal) (acc acc' : ParseAcc)
    (h : events.foldlM step acc = .ok acc')
    (hnd : (acc.stages.map Prod.fst).Nodup) :
    (acc'.stages.map Prod.fst).Nodup := by
  induction events generalizing acc with
  | nil =>
    simp only [List.foldlM_nil, pure, Except.pure] at h
    cases h
    exact hnd
  | cons e rest ih =>
    rw [List.foldlM_cons] at h
    cases hstep : step acc e with
    | error err =>
      rw [hstep] at h
      simp [Bind.bind, Except.bind] at h
    | ok a =>
      rw [hstep] at h
      simp only [Bind.bind, Except.bind] at h
      obtain ⟨-, -, -, hst⟩ := step_app_effects acc e a hstep
      rcases hst with heq | ⟨k, v, heq⟩
      · exact ih a h (heq ▸ hnd)
      · exact ih a h (heq ▸ upsertStage_keys_nodup _ k v hnd)

/-- C5: the stage records of the summary are ordered by stage id strictly
ascending, and each stage's duration is defined (as completion minus
submission) exactly when both timestamps are present and completion ≥
submission; otherwise the duration is absent, and it is never negative. -/
theorem stage_rows_spec (events : List PyVal) (s : TelemetrySummary)
    (h : parse_eventlog events = .ok s) :
    (s.stages.map (fun r => r.stage_id)).Pairwise (· < ·)
    ∧ ∀ r ∈ s.stages,
        (∀ d, r.duration_ms = some d ↔
          ∃ sub comp, r.submission_time_ms = some sub
            ∧ r.completion_time_ms = some comp ∧ sub ≤ comp ∧ d = comp - sub)
        ∧ ((r.submission_time_ms = Option.none ∨ r.completion_time_ms = Option.none
            ∨ ∃ sub comp, r.submission_time_ms = some sub
               ∧ r.completion_time_ms = some comp ∧ comp < sub)
           → r.duration_ms = Option.none)
        ∧ (∀ d, r.duration_ms = some d → 0 ≤ d) := by
  obtain ⟨acc, hacc, hs⟩ := parse_ok_mkSummary events s h
  subst hs
  have hnodup : (acc.stages.map Prod.fst).Nodup :=
    foldlM_stage_keys_nodup events ParseAcc.empty acc hacc (by simp [ParseAcc.empty])
  constructor
  · have hsorted : (List.insertionSort stageLE acc.stages).Pairwise stageLE :=
      List.sorted_insertionSort stageLE acc.stages
    have hperm : List.Perm (List.insertionSort stageLE acc.stages) acc.stages :=
      List.perm_insertionSort stageLE acc.stages
    have hnodup2 :
        ((List.insertionSort stageLE acc.stages).map Prod.fst).Nodup :=
      ((hperm.map Prod.fst).nodup_iff).mpr hnodup
    have hne :
        (List.insertionSort stageLE acc.stages).Pairwise
          (fun a b => a.1 ≠ b.1) :=
      List.pairwise_map.mp hnodup2
    show (((List.insertionSort stageLE acc.stages).map
        mkStageRow).map (fun r => r.stage_id)).Pairwise (· < ·)
    rw [List.map_map]
    have hcomp : ((fun r : StageRow => r.stage_id) ∘ mkStageRow)
        = (fun p : Int × StageAcc => p.1) := rfl
    rw [hcomp, List.pairwise_map]
    exact (hsorted.and hne).imp (fun hab => lt_of_le_of_ne hab.1 hab.2)
  · intro r hr
    obtain ⟨p, -, hp⟩ := List.mem_map.mp hr
    subst hp
    refine ⟨?_, ?_, ?_⟩
    · intro d
      constructor
      · intro hd
        cases hsub : p.2.submission_time_ms with
        | none => simp [mkStageRow, hsub] at hd
        | some sub =>
          cases hcomp : p.2.completion_time_ms with
          | none => simp [mkStageRow, hsub, hcomp] at hd
          | some comp =>
            simp only [mkStageRow, hsub, hcomp] at hd
            by_cases hle : sub ≤ comp
            · rw [if_pos hle] at hd
              exact ⟨sub, comp, hsub, hcomp, hle, by injection hd with h2; omega⟩
            · rw [if_neg hle] at hd
              cases hd
      · rintro ⟨sub, comp, hsub, hcomp, hle, hd⟩
        simp only [mkStageRow] at hsub hcomp ⊢
        rw [hsub, hcomp]
        simp [hle, hd]
    · rintro (hnone | hnone | ⟨sub, comp, hsub, hcomp, hlt⟩)
      · simp only [mkStageRow] at hnone ⊢
        rw [hnone]
      · simp only [mkStageRow] at hnone ⊢
        rw [hnone]
        cases p.2.submission_time_ms <;> rfl
      · simp only [mkStageRow] at hsub hcomp ⊢
        rw [hsub, hcomp]
        simp [Int.not_le.mpr hlt]
    · intro d hd
      cases hsub : p.2.submission_time_ms with
      | none => simp [mkStageRow, hsub] at hd
      | some sub =>
        cases hcomp : p.2.completion_time_ms with
        | none => simp [mkStageRow, hsub, hcomp] at hd
        | some comp =>
          simp only [mkStageRow, hsub, hcomp] at hd
          by_cases hle : sub ≤ comp
          · rw [if_pos hle] at hd
            injection hd with h2
            omega
          · rw [if_neg hle] at hd
            cases hd

/-- Witness for C5 on a log submitting stages 3 and 1: ids come out
strictly ascending. -/
theorem stage_rows_spec_witness :
    ((((parse_eventlog
      [.dict [("Event", .str "SparkListenerStageSubmitted"),
              ("Stage Info", .dict [("Stage ID", .int 3), ("Submission Time", .int 10)])],
       .dict [("Event", .str "SparkListenerStageSubmitted"),
              ("Stage Info", .dict [("Stage ID", .int 1), ("Submission Time", .int 2)])]]).toOption.getD
      (mkSummary ParseAcc.empty)).stages.map (fun r => r.stage_id)).Pairwise
      (· < ·)) := by
  have h : parse_eventlog
      [.dict [("Event", .str "SparkListenerStageSubmitted"),
              ("Stage Info", .dict [("Stage ID", .int 3), ("Submission Time", .int 10)])],
       .dict [("Event", .str "SparkListenerStageSubmitted"),
              ("Stage Info", .dict [("Stage ID", .int 1), ("Submission Time", .int 2)])]]
      = .ok ((parse_eventlog
        [.dict [("Event", .str "SparkListenerStageSubmitted"),
                ("Stage Info", .dict [("Stage ID", .int 3), ("Submission Time", .int 10)])],
         .dict [("Event", .str "SparkListenerStageSubmitted"),
                ("Stage Info", .dict [("Stage ID", .int 1), ("Submission Time", .int 2)])]]).toOption.getD
        (mkSummary ParseAcc.empty)) := rfl
  exact (stage_rows_spec _ _ h).1

theorem rewriteLine_nil (line : List Char) : rewriteLine [] line = line := by
  unfold rewriteLine
  split
  · rfl
  · split
    · rfl
    · rfl

theorem rewriteLinesCore_nil (lines : List (List Char)) :
    rewriteLinesCore [] lines = lines := by
  unfold rewriteLinesCore appendedLines
  simp only [List.filter_nil, List.map_nil, List.append_nil]
  rw [List.map_congr_left (fun l _ => rewriteLine_nil l)]
  exact List.map_id lines

theorem flatten_linesKeep (l : List Char) : (linesKeep l).flatten = l := by
  induction l with
  | nil => rfl
  | cons c cs ih =>
    rw [linesKeep]
    by_cases hc : c = '\n'
    · rw [if_pos hc, hc]
      simp only [List.flatten_cons]
      rw [ih]
      rfl
    · rw [if_neg hc]
      cases hlk : linesKeep cs with
      | nil =>
        have hcs : (linesKeep cs).flatten = cs := ih
        rw [hlk] at hcs
        simp only [List.flatten_nil] at hcs
        subst hcs
        simp
      | cons lhd ltl =>
        have hcs : (linesKeep cs).flatten = cs := ih
        rw [hlk] at hcs
        simp only [List.flatten_cons] at hcs ⊢
        rw [← hcs]
        simp

/-- C6: running the Config Transformer with an empty update mapping
returns the source text byte-for-byte: comments, matching lines (whose
key is never in the empty mapping), and unrecognized lines are all copied
verbatim, and nothing is appended. -/
theorem rewrite_empty_updates_id (src : String) : _rewrite_kv_conf [] src = src := by
  unfold _rewrite_kv_conf
  rw [rewriteLinesCore_nil, flatten_linesKeep]

theorem space_chars (c : Char) (h : pySpace c = true) :
    c = ' ' ∨ c = '\t' ∨ c = '\n' ∨ c = '\r' ∨ c = '\x0b' ∨ c = '\x0c' := by
  simp [pySpace] at h
  tauto

theorem keyChar_no_space (c : Char) (h : keyChar c = true) : pySpace c = false := by
  by_contra hc
  have hsp : pySpace c = true := by simpa using hc
  rcases space_chars c hsp with h1 | h1 | h1 | h1 | h1 | h1 <;> subst h1 <;>
    exact absurd h (by decide)

theorem space_not_keyChar (c : Char) (h : pySpace c = true) : keyChar c = false := by
  by_contra hc
  have hk : keyChar c = true := by simpa using hc
  rw [keyChar_no_space c hk] at h
  cases h

theorem keyChar_ne_eq (c : Char) (h : keyChar c = true) : c ≠ '=' := by
  intro he; subst he; exact absurd h (by decide)

theorem keyChar_ne_nl (c : Char) (h : keyChar c = true) : c ≠ '\n' := by
  intro he; subst he; exact absurd h (by decide)

theorem keyChar_ne_hash (c : Char) (h : keyChar c = true) : c ≠ '#' := by
  intro he; subst he; exact absurd h (by decide)

theorem keyChar_ne_slash (c : Char) (h : keyChar c = true) : c ≠ '/' := by
  intro he; subst he; exact absurd h (by decide)

theorem takeWhile_append_all (p : Char → Bool) (l1 l2 : List Char)
    (h : ∀ c ∈ l1, p c = true) :
    (l1 ++ l2).takeWhile p = l1 ++ l2.takeWhile p := by
  induction l1 with
  | nil => simp
  | cons c cs ih =>
    rw [List.cons_append, List.takeWhile_cons, if_pos (h c (by simp))]
    rw [ih (fun d hd => h d (by simp [hd]))]
    rfl

theorem dropWhile_append_all (p : Char → Bool) (l1 l2 : List Char)
    (h : ∀ c ∈ l1, p c = true) :
    (l1 ++ l2).dropWhile p = l2.dropWhile p := by
  induction l1 with
  | nil => simp
  | cons c cs ih =>
    rw [List.cons_append, List.dropWhile_cons, if_pos (h c (by simp))]
    exact ih (fun d hd => h d (by simp [hd]))

theorem takeWhile_nil_of_head (p : Char → Bool) (c : Char) (l : List Char)
    (h : p c = false) : (c :: l).takeWhile p = [] := by
  rw [List.takeWhile_cons, if_neg (by simp [h])]

theorem dropWhile_id_of_head (p : Char → Bool) (c : Char) (l : List Char)
    (h : p c = false) : (c :: l).dropWhile p = c :: l := by
  rw [List.dropWhile_cons, if_neg (by simp [h])]

theorem dropWhile_id_of_none (p : Char → Bool) (l : List Char)
    (h : ∀ c ∈ l, p c = false) : l.dropWhile p = l := by
  cases l with
  | nil => rfl
  | cons c cs => exact dropWhile_id_of_head p c cs (h c (by simp))

theorem takeWhile_all_of_all (p : Char → Bool) (l : List Char)
    (h : ∀ c ∈ l, p c = true) : l.takeWhile p = l := by
  induction l with
  | nil => rfl
  | cons c cs ih =>
    rw [List.takeWhile_cons, if_pos (h c (by simp))]
    rw [ih (fun d hd => h d (by simp [hd]))]

theorem matchKV_inv (l : List Char) (p : KVParts) (h : matchKV l = some p) :
    l = p.lead ++ p.key ++ p.eqws ++ p.value ++ p.trail
    ∧ (∀ c ∈ p.lead, pySpace c = true)
    ∧ p.key ≠ [] ∧ (∀ c ∈ p.key, keyChar c = true)
    ∧ (∃ w1 w2, p.eqws = w1 ++ '=' :: w2
        ∧ (∀ c ∈ w1, pySpace c = true) ∧ (∀ c ∈ w2, pySpace c = true))
    ∧ (∀ c ∈ p.trail, pySpace c = true)
    ∧ '\n' ∉ p.value := by
  unfold matchKV at h
  dsimp only at h
  by_cases hke : ((l.dropWhile pySpace).takeWhile keyChar).isEmpty
  · rw [if_pos hke] at h; cases h
  · rw [if_neg hke] at h
    cases hm : ((l.dropWhile pySpace).dropWhile keyChar).dropWhile pySpace with
    | nil => rw [hm] at h; cases h
    | cons c r3 =>
      rw [hm] at h
      dsimp only at h
      by_cases hc : c = '='
      · rw [if_pos hc] at h
        subst hc
        by_cases hnl :
            (((r3.dropWhile pySpace).reverse.dropWhile pySpace).reverse).contains '\n'
        · rw [if_pos hnl] at h; cases h
        · rw [if_neg hnl] at h
          injection h with h
          subst h
          dsimp only
          refine ⟨?_, ?_, ?_, ?_, ?_, ?_, ?_⟩
          · have e5 : r3.dropWhile pySpace
                = ((r3.dropWhile pySpace).reverse.dropWhile pySpace).reverse
                  ++ ((r3.dropWhile pySpace).reverse.takeWhile pySpace).reverse := by
              conv_lhs =>
                rw [← List.reverse_reverse (r3.dropWhile pySpace),
                  ← List.takeWhile_append_dropWhile pySpace (r3.dropWhile pySpace).reverse]
              rw [List.reverse_append]
            conv_lhs => rw [← List.takeWhile_append_dropWhile pySpace l]
            conv_lhs =>
              rw [← List.takeWhile_append_dropWhile keyChar (l.dropWhile pySpace)]
            conv_lhs =>
              rw [← List.takeWhile_append_dropWhile pySpace
                ((l.dropWhile pySpace).dropWhile keyChar)]
            conv_lhs => rw [hm]
            conv_lhs => rw [← List.takeWhile_append_dropWhile pySpace r3]
            conv_lhs => rw [e5]
            simp [List.append_assoc]
          · exact fun c hc => List.mem_takeWhile_imp hc
          · intro hemp
            rw [hemp] at hke
            exact hke rfl
          · exact fun c hc => List.mem_takeWhile_imp hc
          · refine ⟨((l.dropWhile pySpace).dropWhile keyChar).takeWhile pySpace,
              r3.takeWhile pySpace, rfl, ?_, ?_⟩
            · exact fun c hc => List.mem_takeWhile_imp hc
            · exact fun c hc => List.mem_takeWhile_imp hc
          · intro c hc
            rw [List.mem_reverse] at hc
            exact List.mem_takeWhile_imp hc
          · intro hmem
            apply hnl
            exact List.elem_iff.mpr hmem
      · rw [if_neg hc] at h
        cases h

theorem matchKV_of_shape (lead key w1 w2 rest : List Char)
    (hlead : ∀ c ∈ lead, pySpace c = true)
    (hkey0 : key ≠ []) (hkey : ∀ c ∈ key, keyChar c = true)
    (hw1 : ∀ c ∈ w1, pySpace c = true) (hw2 : ∀ c ∈ w2, pySpace c = true)
    (hrest : '\n' ∉ rest) :
    ∃ p, matchKV (lead ++ (key ++ (w1 ++ ('=' :: (w2 ++ rest))))) = some p
      ∧ p.key = key := by
  obtain ⟨khd, ktl, hkk⟩ : ∃ khd ktl, key = khd :: ktl := by
    cases key with
    | nil => exact absurd rfl hkey0
    | cons a b => exact ⟨a, b, rfl⟩
  have hkhd : keyChar khd = true := hkey khd (by rw [hkk]; simp)
  have h2 : (lead ++ (key ++ (w1 ++ ('=' :: (w2 ++ rest))))).dropWhile pySpace
      = key ++ (w1 ++ ('=' :: (w2 ++ rest))) := by
    rw [dropWhile_append_all pySpace lead _ hlead]
    rw [hkk, List.cons_append]
    exact dropWhile_id_of_head pySpace khd _ (keyChar_no_space khd hkhd)
  have h3 : (key ++ (w1 ++ ('=' :: (w2 ++ rest)))).takeWhile keyChar = key := by
    rw [takeWhile_append_all keyChar key _ hkey]
    have hz : (w1 ++ ('=' :: (w2 ++ rest))).takeWhile keyChar = [] := by
      cases hw : w1 with
      | nil =>
        simp only [List.nil_append]
        exact takeWhile_nil_of_head keyChar '=' _ (by decide)
      | cons c cs =>
        rw [List.cons_append]
        exact takeWhile_nil_of_head keyChar c _
          (space_not_keyChar c (hw1 c (by rw [hw]; simp)))
    rw [hz, List.append_nil]
  have h5 : (key ++ (w1 ++ ('=' :: (w2 ++ rest)))).dropWhile keyChar
      = w1 ++ ('=' :: (w2 ++ rest)) := by
    rw [dropWhile_append_all keyChar key _ hkey]
    cases hw : w1 with
    | nil =>
      simp only [List.nil_append]
      exact dropWhile_id_of_head keyChar '=' _ (by decide)
    | cons c cs =>
      rw [List.cons_append]
      exact dropWhile_id_of_head keyChar c _
        (space_not_keyChar c (hw1 c (by rw [hw]; simp)))
  have h7 : (w1 ++ ('=' :: (w2 ++ rest))).dropWhile pySpace = '=' :: (w2 ++ rest) := by
    rw [dropWhile_append_all pySpace w1 _ hw1]
    exact dropWhile_id_of_head pySpace '=' _ (by decide)
  have hkne : key.isEmpty = false := by rw [hkk]; rfl
  have hvalrest : ∀ x ∈ ((((w2 ++ rest).dropWhile pySpace).reverse.dropWhile
      pySpace).reverse), x ∈ rest := by
    intro x hx
    rw [List.mem_reverse] at hx
    have hx2 : x ∈ ((w2 ++ rest).dropWhile pySpace).reverse :=
      (List.dropWhile_sublist pySpace).mem hx
    rw [List.mem_reverse] at hx2
    rw [dropWhile_append_all pySpace w2 rest hw2] at hx2
    exact (List.dropWhile_sublist pySpace).mem hx2
  have hcont : ((((w2 ++ rest).dropWhile pySpace).reverse.dropWhile
      pySpace).reverse).contains '\n' = false := by
    by_contra hcc
    have : '\n' ∈ (((w2 ++ rest).dropWhile pySpace).reverse.dropWhile
        pySpace).reverse := List.elem_iff.mp (by simpa using hcc)
    exact hrest (hvalrest '\n' this)
  unfold matchKV
  dsimp only
  rw [h2, h3, hkne]
  simp only [Bool.false_eq_true, if_false]
  rw [h5, h7]
  dsimp only
  rw [if_pos rfl, hcont]
  simp only [Bool.false_eq_true, if_false]
  exact ⟨_, rfl, rfl⟩

theorem rstripNL_concat (core : List Char) (h : '\n' ∉ core) :
    rstripNL (core ++ ['\n']) = core := by
  unfold rstripNL
  rw [List.reverse_append]
  show (('\n' :: core.reverse).dropWhile fun c => c = '\n').reverse = core
  rw [List.dropWhile_cons, if_pos (by simp)]
  rw [dropWhile_id_of_none _ _ (fun c hc => by
    simp only [decide_eq_false_iff_not]
    intro he
    subst he
    exact h (List.mem_reverse.mp hc))]
  exact List.reverse_reverse core.reverse ▸ by simp

theorem isComment_of_key_head (lead : List Char) (c : Char) (rest2 : List Char)
    (hlead : ∀ x ∈ lead, pySpace x = true) (hc : keyChar c = true) :
    isComment (lead ++ c :: rest2) = false := by
  unfold isComment
  rw [dropWhile_append_all pySpace lead _ hlead,
    dropWhile_id_of_head pySpace c _ (keyChar_no_space c hc)]
  split
  · rename_i heq
    simp only [List.cons.injEq] at heq
    exact absurd heq.1 (keyChar_ne_hash c hc)
  · rename_i heq
    simp only [List.cons.injEq] at heq
    exact absurd heq.1 (keyChar_ne_slash c hc)
  · rfl

theorem mem_of_lookup_some (k v : String) (l : List (String × String))
    (h : l.lookup k = some v) : (k, v) ∈ l := by
  induction l with
  | nil => cases h
  | cons hd tl ih =>
    cases hd with
    | mk k1 v1 =>
      rw [List.lookup_cons] at h
      by_cases he : k == k1
      · rw [he] at h
        injection h with h
        subst h
        have : k = k1 := by simpa using he
        subst this
        exact List.mem_cons_self _ _
      · rw [Bool.eq_false_iff.mpr he] at h
        exact List.mem_cons_of_mem _ (ih h)

theorem lineKey_of_shape (lead key w1 w2 rest : List Char)
    (hlead : ∀ c ∈ lead, pySpace c = true)
    (hkey0 : key ≠ []) (hkey : ∀ c ∈ key, keyChar c = true)
    (hw1 : ∀ c ∈ w1, pySpace c = true) (hw2 : ∀ c ∈ w2, pySpace c = true)
    (hleadnl : '\n' ∉ lead) (hw1nl : '\n' ∉ w1) (hw2nl : '\n' ∉ w2)
    (hrest : '\n' ∉ rest) :
    lineKey ((lead ++ (key ++ (w1 ++ ('=' :: (w2 ++ rest))))) ++ ['\n'])
      = some (String.mk key) := by
  obtain ⟨khd, ktl, hkk⟩ : ∃ khd ktl, key = khd :: ktl := by
    cases key with
    | nil => exact absurd rfl hkey0
    | cons a b => exact ⟨a, b, rfl⟩
  have hkhd : keyChar khd = true := hkey khd (by rw [hkk]; simp)
  have hcorenl : '\n' ∉ lead ++ (key ++ (w1 ++ ('=' :: (w2 ++ rest)))) := by
    intro hmem
    simp only [List.mem_append, List.mem_cons] at hmem
    rcases hmem with h | h | h | h | h
    · exact hleadnl h
    · exact keyChar_ne_nl '\n' (hkey '\n' h) rfl
    · exact hw1nl h
    · cases h
    · rcases h with h | h
      · exact hw2nl h
      · exact hrest h
  have hcomm : isComment ((lead ++ (key ++ (w1 ++ ('=' :: (w2 ++ rest))))) ++ ['\n'])
      = false := by
    have hre : (lead ++ (key ++ (w1 ++ ('=' :: (w2 ++ rest))))) ++ ['\n']
        = lead ++ khd :: (ktl ++ (w1 ++ ('=' :: (w2 ++ rest))) ++ ['\n']) := by
      rw [hkk]
      simp [List.append_assoc]
    rw [hre]
    exact isComment_of_key_head lead khd _ hlead hkhd
  unfold lineKey
  rw [hcomm]
  simp only [Bool.false_eq_true, if_false]
  rw [rstripNL_concat _ hcorenl]
  obtain ⟨p, hp, hpk⟩ := matchKV_of_shape lead key w1 w2 rest hlead hkey0 hkey hw1 hw2 hrest
  rw [hp]
  simp [hpk]

theorem lineKey_rewriteLine (updates : List (String × String)) (l : List Char)
    (hl : '\n' ∉ rstripNL l)
    (hvals : ∀ kv ∈ updates, '\n' ∉ (kv.2 : String).data) :
    lineKey (rewriteLine updates l) = lineKey l := by
  unfold rewriteLine
  by_cases hcom : isComment l
  · rw [if_pos hcom]
  · rw [if_neg hcom]
    cases hm : matchKV (rstripNL l) with
    | none => rfl
    | some p =>
      dsimp only
      cases hu : updates.lookup (String.mk p.key) with
      | none => rfl
      | some v =>
        dsimp only
        obtain ⟨hdec, hleadws, hkey0, hkeyc, ⟨w1, w2, heqws, hw1, hw2⟩, htrailws, hvnl⟩ :=
          matchKV_inv _ p hm
        have hmem : ∀ x : Char, (x ∈ p.lead ∨ x ∈ p.key ∨ x ∈ p.eqws ∨ x ∈ p.value
            ∨ x ∈ p.trail) → x ∈ rstripNL l := by
          intro x hx
          rw [hdec]
          simp only [List.mem_append]
          tauto
        have hleadnl : '\n' ∉ p.lead := fun hx => hl (hmem _ (Or.inl hx))
        have htrailnl : '\n' ∉ p.trail :=
          fun hx => hl (hmem _ (Or.inr (Or.inr (Or.inr (Or.inr hx)))))
        have hw1nl : '\n' ∉ w1 := by
          intro hx
          exact hl (hmem _ (Or.inr (Or.inr (Or.inl (by rw [heqws]; simp [hx])))))
        have hw2nl : '\n' ∉ w2 := by
          intro hx
          exact hl (hmem _ (Or.inr (Or.inr (Or.inl (by rw [heqws]; simp [hx])))))
        have hvdata : '\n' ∉ v.data :=
          hvals (String.mk p.key, v) (mem_of_lookup_some _ _ _ hu)
        have hrestnl : '\n' ∉ v.data ++ p.trail := by
          intro hx
          rcases List.mem_append.mp hx with hx | hx
          · exact hvdata hx
          · exact htrailnl hx
        have hre : p.lead ++ p.key ++ p.eqws ++ v.data ++ p.trail ++ ['\n']
            = (p.lead ++ (p.key ++ (w1 ++ ('=' :: (w2 ++ (v.data ++ p.trail))))))
              ++ ['\n'] := by
          rw [heqws]
          simp [List.append_assoc]
        rw [hre]
        rw [lineKey_of_shape p.lead p.key w1 w2 (v.data ++ p.trail) hleadws hkey0
          hkeyc hw1 hw2 hleadnl hw1nl hw2nl hrestnl]
        unfold lineKey
        rw [if_neg hcom, hm]
        rfl

theorem string_mk_data (s : String) : String.mk s.data = s := by
  cases s
  rfl

theorem countKey_appendedLines (updates : List (String × String))
    (out : List (List Char)) (k : String)
    (hnodup : (updates.map Prod.fst).Nodup)
    (hkeys : ∀ kv ∈ updates, (kv.1 : String).data ≠ []
      ∧ ∀ c ∈ (kv.1 : String).data, keyChar c = true)
    (hvals : ∀ kv ∈ updates, '\n' ∉ (kv.2 : String).data) :
    countKey k (appendedLines updates out)
      = if k ∈ updates.map Prod.fst ∧ existingKeys out k = false then 1 else 0 := by
  unfold countKey appendedLines
  rw [← List.countP_eq_length_filter, List.countP_map]
  have hcongr : List.countP
      ((fun l => lineKey l == some k) ∘ fun kv : String × String =>
        kv.1.data ++ '=' :: kv.2.data ++ ['\n'])
      (updates.filter (fun kv => !existingKeys out kv.1))
      = List.countP (fun kv : String × String => kv.1 == k)
        (updates.filter (fun kv => !existingKeys out kv.1)) := by
    apply List.countP_congr
    intro kv hkv
    have hkvu : kv ∈ updates := List.mem_of_mem_filter hkv
    obtain ⟨hk0, hkc⟩ := hkeys kv hkvu
    have hv := hvals kv hkvu
    have hshape : kv.1.data ++ '=' :: kv.2.data ++ ['\n']
        = ([] ++ (kv.1.data ++ ([] ++ ('=' :: ([] ++ kv.2.data))))) ++ ['\n'] := by
      simp [List.append_assoc]
    simp only [Function.comp_apply]
    rw [hshape, lineKey_of_shape [] kv.1.data [] [] kv.2.data (by simp) hk0 hkc
      (by simp) (by simp) (by simp) (by simp) (by simp) hv]
    rw [string_mk_data]
    constructor
    · intro hb
      have hkeq : kv.1 = k := by simpa using hb
      simp [hkeq]
    · intro hb
      have hkeq : kv.1 = k := by simpa using hb
      simp [hkeq]
  rw [hcongr, List.countP_filter]
  by_cases hex : existingKeys out k = false
  · simp only [hex, and_true]
    by_cases hmem : k ∈ updates.map Prod.fst
    · rw [if_pos hmem]
      have hcnt : List.countP
          (fun kv : String × String => kv.1 == k && !existingKeys out kv.1) updates
          = List.countP (fun kv : String × String => kv.1 == k) updates := by
        apply List.countP_congr
        intro kv hkv
        constructor
        · intro hb
          simp only [Bool.and_eq_true] at hb
          exact hb.1
        · intro hb
          have hkeq : kv.1 = k := by simpa using hb
          simp [hkeq, hex]
      rw [hcnt]
      have hcount : List.countP (fun kv : String × String => kv.1 == k) updates
          = List.count k (updates.map Prod.fst) := by
        show _ = List.countP (fun a => a == k) (updates.map Prod.fst)
        rw [List.countP_map]
        rfl
      rw [hcount]
      exact List.count_eq_one_of_mem hnodup hmem
    · rw [if_neg hmem]
      have hz : ∀ kv ∈ updates,
          (kv.1 == k && !existingKeys out kv.1) = false := by
        intro kv hkv
        by_cases hkeq : kv.1 = k
        · exact absurd (hkeq ▸ List.mem_map_of_mem Prod.fst hkv) hmem
        · simp [hkeq]
      rw [List.countP_eq_length_filter]
      rw [List.filter_eq_nil_iff.mpr (fun kv hkv => by simp [hz kv hkv])]
      rfl
  · have hex2 : existingKeys out k = true := by simpa using hex
    simp only [hex]
    rw [if_neg (by simp [hex2])]
    have hz : ∀ kv ∈ updates,
        (kv.1 == k && !existingKeys out kv.1) = false := by
      intro kv hkv
      by_cases hkeq : kv.1 = k
      · simp [hkeq, hex2]
      · simp [hkeq]
    rw [List.countP_eq_length_filter]
    rw [List.filter_eq_nil_iff.mpr (fun kv hkv => by simp [hz kv hkv])]
    rfl

theorem linesKeep_ne_nil (c : Char) (cs : List Char) : linesKeep (c :: cs) ≠ [] := by
  rw [linesKeep]
  by_cases hc : c = '\n'
  · simp [hc]
  · rw [if_neg hc]
    cases linesKeep cs <;> simp

theorem linesKeep_eq_nil (l : List Char) (h : linesKeep l = []) : l = [] := by
  cases l with
  | nil => rfl
  | cons c cs => exact absurd h (linesKeep_ne_nil c cs)

theorem linesKeep_proper (l : List Char) (h : l = [] ∨ l.getLast? = some '\n') :
    ∀ e ∈ linesKeep l, ∃ core, e = core ++ ['\n'] ∧ '\n' ∉ core := by
  induction l with
  | nil => intro e he; simp [linesKeep] at he
  | cons c cs ih =>
    have hlast : (c :: cs).getLast? = some '\n' := by
      rcases h with h0 | h1
      · cases h0
      · exact h1
    have hinv : cs = [] ∨ cs.getLast? = some '\n' := by
      cases cs with
      | nil => exact Or.inl rfl
      | cons d ds =>
        right
        rw [← List.getLast?_cons_cons]
        exact hlast
    intro e he
    rw [linesKeep] at he
    by_cases hc : c = '\n'
    · rw [if_pos hc] at he
      rcases List.mem_cons.mp he with he1 | he1
      · exact ⟨[], by simp [he1, hc], by simp⟩
      · exact ih hinv e he1
    · rw [if_neg hc] at he
      cases hlk : linesKeep cs with
      | nil =>
        rw [hlk] at he
        have hcs : cs = [] := linesKeep_eq_nil cs hlk
        subst hcs
        simp at hlast
        exact absurd hlast hc
      | cons lhd ltl =>
        rw [hlk] at he
        rcases List.mem_cons.mp he with he1 | he1
        · obtain ⟨core, hcore, hcnl⟩ := ih hinv lhd (by rw [hlk]; simp)
          refine ⟨c :: core, ?_, ?_⟩
          · rw [he1, hcore]
            rfl
          · intro hx
            rcases List.mem_cons.mp hx with hx | hx
            · exact hc hx.symm
            · exact hcnl hx
        · exact ih hinv e (by rw [hlk]; exact List.mem_cons_of_mem _ he1)

theorem linesKeep_append_proper (core rest : List Char) (h : '\n' ∉ core) :
    linesKeep (core ++ '\n' :: rest) = (core ++ ['\n']) :: linesKeep rest := by
  induction core with
  | nil =>
    rw [List.nil_append, linesKeep, if_pos rfl]
    rfl
  | cons c cs ih =>
    have hc : ¬ c = '\n' := fun he => h (by simp [he])
    rw [List.cons_append, linesKeep, if_neg hc]
    rw [ih (fun hx => h (by simp [hx]))]
    rfl

theorem linesKeep_flatten_of_proper (ls : List (List Char))
    (h : ∀ e ∈ ls, ∃ core, e = core ++ ['\n'] ∧ '\n' ∉ core) :
    linesKeep ls.flatten = ls := by
  induction ls with
  | nil => rfl
  | cons e es ih =>
    obtain ⟨core, he, hnl⟩ := h e (by simp)
    rw [List.flatten_cons, he]
    rw [show (core ++ ['\n']) ++ es.flatten = core ++ '\n' :: es.flatten by simp]
    rw [linesKeep_append_proper core _ hnl]
    rw [ih (fun x hx => h x (by simp [hx])), ← he]

theorem rewriteLine_proper (updates : List (String × String)) (l : List Char)
    (hl : ∃ core, l = core ++ ['\n'] ∧ '\n' ∉ core)
    (hvals : ∀ kv ∈ updates, '\n' ∉ (kv.2 : String).data) :
    ∃ core, rewriteLine updates l = core ++ ['\n'] ∧ '\n' ∉ core := by
  unfold rewriteLine
  by_cases hcom : isComment l
  · rw [if_pos hcom]; exact hl
  · rw [if_neg hcom]
    cases hm : matchKV (rstripNL l) with
    | none => exact hl
    | some p =>
      dsimp only
      cases hu : updates.lookup (String.mk p.key) with
      | none => exact hl
      | some v =>
        dsimp only
        obtain ⟨core, hc, hcnl⟩ := hl
        have hr : rstripNL l = core := by rw [hc]; exact rstripNL_concat core hcnl
        obtain ⟨hdec, -, -, -, -, -, -⟩ := matchKV_inv _ p hm
        rw [hr] at hdec
        have hvd : '\n' ∉ v.data := hvals _ (mem_of_lookup_some _ _ _ hu)
        have hparts : ∀ x : Char,
            (x ∈ p.lead ∨ x ∈ p.key ∨ x ∈ p.eqws ∨ x ∈ p.trail) → x ∈ core := by
          intro x hx
          rw [hdec]
          simp only [List.mem_append]
          tauto
        refine ⟨p.lead ++ p.key ++ p.eqws ++ v.data ++ p.trail, rfl, ?_⟩
        intro hx
        simp only [List.mem_append] at hx
        rcases hx with (((hx | hx) | hx) | hx) | hx
        · exact hcnl (hparts _ (Or.inl hx))
        · exact hcnl (hparts _ (Or.inr (Or.inl hx)))
        · exact hcnl (hparts _ (Or.inr (Or.inr (Or.inl hx))))
        · exact hvd hx
        · exact hcnl (hparts _ (Or.inr (Or.inr (Or.inr hx))))

theorem appendedLines_proper (updates : List (String × String))
    (out : List (List Char))
    (hkeys : ∀ kv ∈ updates, (kv.1 : String).data ≠ []
      ∧ ∀ c ∈ (kv.1 : String).data, keyChar c = true)
    (hvals : ∀ kv ∈ updates, '\n' ∉ (kv.2 : String).data) :
    ∀ e ∈ appendedLines updates out, ∃ core, e = core ++ ['\n'] ∧ '\n' ∉ core := by
  intro e he
  unfold appendedLines at he
  obtain ⟨kv, hkv, hkve⟩ := List.mem_map.mp he
  have hkvu := List.mem_of_mem_filter hkv
  refine ⟨kv.1.data ++ '=' :: kv.2.data, ?_, ?_⟩
  · rw [← hkve]
  · intro hx
    rcases List.mem_append.mp hx with hx | hx
    · exact keyChar_ne_nl '\n' ((hkeys kv hkvu).2 '\n' hx) rfl
    · rcases List.mem_cons.mp hx with hx | hx
      · cases hx
      · exact hvals kv hkvu hx

theorem countKey_map_rewrite (updates : List (String × String))
    (lines : List (List Char)) (k : String)
    (hlines : ∀ l ∈ lines, '\n' ∉ rstripNL l)
    (hvals : ∀ kv ∈ updates, '\n' ∉ (kv.2 : String).data) :
    countKey k (lines.map (rewriteLine updates)) = countKey k lines := by
  unfold countKey
  rw [← List.countP_eq_length_filter, ← List.countP_eq_length_filter, List.countP_map]
  apply List.countP_congr
  intro l hlmem
  simp only [Function.comp_apply]
  rw [lineKey_rewriteLine updates l (hlines l hlmem) hvals]

theorem existingKeys_iff_countKey (out : List (List Char)) (k : String) :
    existingKeys out k = true ↔ countKey k out ≠ 0 := by
  unfold existingKeys countKey
  rw [List.any_eq_true]
  constructor
  · rintro ⟨l, hl, hp⟩
    have hmem : l ∈ out.filter (fun l => lineKey l == some k) :=
      List.mem_filter.mpr ⟨hl, hp⟩
    intro hlen
    rw [List.length_eq_zero] at hlen
    rw [hlen] at hmem
    cases hmem
  · intro hne
    have hfne : out.filter (fun l => lineKey l == some k) ≠ [] := by
      intro h0
      apply hne
      rw [h0]
      rfl
    obtain ⟨l, hl⟩ := List.exists_mem_of_ne_nil _ hfne
    exact ⟨l, (List.mem_filter.mp hl).1, (List.mem_filter.mp hl).2⟩

theorem countKey_rewriteLinesCore (updates : List (String × String))
    (lines : List (List Char)) (k : String)
    (hnodup : (updates.map Prod.fst).Nodup)
    (hkeys : ∀ kv ∈ updates, (kv.1 : String).data ≠ []
      ∧ ∀ c ∈ (kv.1 : String).data, keyChar c = true)
    (hvals : ∀ kv ∈ updates, '\n' ∉ (kv.2 : String).data)
    (hlines : ∀ l ∈ lines, '\n' ∉ rstripNL l)
    (hk : k ∈ updates.map Prod.fst) :
    countKey k (rewriteLinesCore updates lines)
      = if countKey k lines = 0 then 1 else countKey k lines := by
  unfold rewriteLinesCore
  have happ : ∀ (l1 l2 : List (List Char)),
      countKey k (l1 ++ l2) = countKey k l1 + countKey k l2 := by
    intro l1 l2
    unfold countKey
    rw [List.filter_append, List.length_append]
  rw [happ]
  rw [countKey_map_rewrite updates lines k hlines hvals]
  rw [countKey_appendedLines updates _ k hnodup hkeys hvals]
  have hcmap : countKey k (lines.map (rewriteLine updates)) = countKey k lines :=
    countKey_map_rewrite updates lines k hlines hvals
  by_cases h0 : countKey k lines = 0
  · have hex : existingKeys (lines.map (rewriteLine updates)) k = false := by
      by_contra hb
      have hbt : existingKeys (lines.map (rewriteLine updates)) k = true := by
        simpa using hb
      exact (existingKeys_iff_countKey _ k).mp hbt (by rw [hcmap]; exact h0)
    rw [if_pos ⟨hk, hex⟩, if_pos h0, h0]
  · have hex : existingKeys (lines.map (rewriteLine updates)) k = true :=
      (existingKeys_iff_countKey _ k).mpr (by rw [hcmap]; exact h0)
    rw [if_neg (by simp [hex]), if_neg h0]
    omega

/-- Counterexample to C2 as stated: on the source `x = 1` (no trailing
newline) with the single update `new -> 2`, the transformer copies the
unterminated final line and appends `new=2` with no separator between
them, producing `x = 1new=2` as one line — the key `new` occurs zero
times among the output's key=value lines, not exactly once. -/
theorem rewrite_kv_conf_counterexample :
    _rewrite_kv_conf [("new", "2")] "x = 1" = "x = 1new=2\n"
    ∧ countKey "new" (linesKeep (_rewrite_kv_conf [("new", "2")] "x = 1").data) = 0
    ∧ countKey "new" (linesKeep ("x = 1").data) = 0 :=
  ⟨rfl, rfl, rfl⟩

/-- C2 (amended): provided the source is empty or newline-terminated,
the source and the update values consist of tame characters (ASCII
without the non-newline line-break/control whitespace characters — on a
line terminated by one of those, such as a vertical tab, the program
itself inserts a newline beyond the value segment, and Unicode
whitespace changes which lines its regex matches), no update value
contains a newline, and every updated key is a non-empty run of key
characters, the output consists of the source's lines — each non-comment
`key = value` line whose key is updated rewritten in place with only the
value segment replaced (leading whitespace and the whitespace around the
equals sign preserved), all other lines copied verbatim — followed by
one appended `key=value` line for each updated key absent from the
source's non-comment lines; consequently each updated key occurs in the
output exactly as often as in the source when it occurred at all, and
exactly once otherwise. -/
theorem rewrite_kv_conf_counts (updates : List (String × String)) (src : String)
    (hne : updates ≠ [])
    (hnodup : (updates.map Prod.fst).Nodup)
    (hkeys : ∀ kv ∈ updates, (kv.1 : String).data ≠ []
      ∧ ∀ c ∈ (kv.1 : String).data, keyChar c = true)
    (hvals : ∀ kv ∈ updates, '\n' ∉ (kv.2 : String).data)
    (hvalst : ∀ kv ∈ updates, ∀ c ∈ (kv.2 : String).data, tameChar c = true)
    (hsrc : src.data = [] ∨ src.data.getLast? = some '\n')
    (hsrct : ∀ c ∈ src.data, tameChar c = true) :
    (∀ k, k ∈ updates.map Prod.fst →
      countKey k (linesKeep (_rewrite_kv_conf updates src).data)
        = if countKey k (linesKeep src.data) = 0 then 1
          else countKey k (linesKeep src.data))
    ∧ linesKeep (_rewrite_kv_conf updates src).data
        = (linesKeep src.data).map (rewriteLine updates)
          ++ appendedLines updates ((linesKeep src.data).map (rewriteLine updates))
    ∧ (∀ l ∈ linesKeep src.data, isComment l = false →
        ∀ p, matchKV (rstripNL l) = some p →
        ∀ v, updates.lookup (String.mk p.key) = some v →
        rewriteLine updates l = p.lead ++ p.key ++ p.eqws ++ v.data ++ p.trail ++ ['\n'])
    ∧ (∀ l ∈ linesKeep src.data,
        (isComment l = true → rewriteLine updates l = l)
        ∧ (matchKV (rstripNL l) = Option.none → rewriteLine updates l = l)
        ∧ (∀ p, matchKV (rstripNL l) = some p →
            updates.lookup (String.mk p.key) = Option.none →
            rewriteLine updates l = l))
    ∧ (∀ k v, (k, v) ∈ updates → countKey k (linesKeep src.data) = 0 →
        (k.data ++ '=' :: v.data ++ ['\n']) ∈ appendedLines updates
          ((linesKeep src.data).map (rewriteLine updates))) := by
  have hproper : ∀ e ∈ linesKeep src.data, ∃ core, e = core ++ ['\n'] ∧ '\n' ∉ core :=
    linesKeep_proper src.data hsrc
  have hlines : ∀ l ∈ linesKeep src.data, '\n' ∉ rstripNL l := by
    intro l hl
    obtain ⟨core, hc, hcnl⟩ := hproper l hl
    rw [hc, rstripNL_concat core hcnl]
    exact hcnl
  have houtproper : ∀ e ∈ (linesKeep src.data).map (rewriteLine updates)
      ++ appendedLines updates ((linesKeep src.data).map (rewriteLine updates)),
      ∃ core, e = core ++ ['\n'] ∧ '\n' ∉ core := by
    intro e he
    rcases List.mem_append.mp he with he | he
    · obtain ⟨l, hl, hle⟩ := List.mem_map.mp he
      rw [← hle]
      exact rewriteLine_proper updates l (hproper l hl) hvals
    · exact appendedLines_proper updates _ hkeys hvals e he
  have hstruct : linesKeep (_rewrite_kv_conf updates src).data
      = (linesKeep src.data).map (rewriteLine updates)
        ++ appendedLines updates ((linesKeep src.data).map (rewriteLine updates)) := by
    have hcore : rewriteLinesCore updates (linesKeep src.data)
        = (linesKeep src.data).map (rewriteLine updates)
          ++ appendedLines updates ((linesKeep src.data).map (rewriteLine updates)) :=
      rfl
    show linesKeep (rewriteLinesCore updates (linesKeep src.data)).flatten = _
    rw [hcore]
    exact linesKeep_flatten_of_proper _ houtproper
  refine ⟨?_, hstruct, ?_, ?_, ?_⟩
  · intro k hk
    rw [hstruct]
    have := countKey_rewriteLinesCore updates (linesKeep src.data) k hnodup hkeys
      hvals hlines hk
    unfold rewriteLinesCore at this
    exact this
  · intro l hlmem hcom p hp v hv
    unfold rewriteLine
    rw [if_neg (by simp [hcom]), hp]
    dsimp only
    rw [hv]
  · intro l hlmem
    refine ⟨?_, ?_, ?_⟩
    · intro hcom
      unfold rewriteLine
      rw [if_pos hcom]
    · intro hm
      unfold rewriteLine
      by_cases hcom : isComment l
      · rw [if_pos hcom]
      · rw [if_neg hcom, hm]
    · intro p hm hu
      unfold rewriteLine
      by_cases hcom : isComment l
      · rw [if_pos hcom]
      · rw [if_neg hcom, hm]
        dsimp only
        rw [hu]
  · intro k v hkv h0
    have hcmap : countKey k ((linesKeep src.data).map (rewriteLine updates))
        = countKey k (linesKeep src.data) :=
      countKey_map_rewrite updates _ k hlines hvals
    have hex : existingKeys ((linesKeep src.data).map (rewriteLine updates)) k
        = false := by
      by_contra hb
      have hbt : existingKeys ((linesKeep src.data).map (rewriteLine updates)) k
          = true := by simpa using hb
      exact (existingKeys_iff_countKey _ k).mp hbt (by rw [hcmap]; exact h0)
    unfold appendedLines
    apply List.mem_map.mpr
    exact ⟨(k, v), List.mem_filter.mpr ⟨hkv, by simp [hex]⟩, rfl⟩

/-- Witness for C2 (amended) at a concrete source with one present and
one absent key: the present key keeps its single occurrence, the absent
key is appended once. -/
theorem rewrite_kv_conf_counts_witness :
    countKey "k" (linesKeep (_rewrite_kv_conf [("k", "2"), ("new", "9")]
      "# c\nk =  1 \nother = 5\n").data) = 1
    ∧ countKey "new" (linesKeep (_rewrite_kv_conf [("k", "2"), ("new", "9")]
      "# c\nk =  1 \nother = 5\n").data) = 1 := by
  have hk := (rewrite_kv_conf_counts [("k", "2"), ("new", "9")]
    "# c\nk =  1 \nother = 5\n" (by simp) (by simp) (by decide) (by decide)
    (by decide) (Or.inr rfl) (by decide)).1 "k" (by simp)
  have hn := (rewrite_kv_conf_counts [("k", "2"), ("new", "9")]
    "# c\nk =  1 \nother = 5\n" (by simp) (by simp) (by decide) (by decide)
    (by decide) (Or.inr rfl) (by decide)).1 "new" (by simp)
  constructor
  · rw [hk]
    rfl
  · rw [hn]
    rfl
